import Mathlib

/-!
Verification of the TextRight ContentEditor block/run document model.

The embedding mirrors the TypeScript source:

* a `Run` is a content span (`<span class=style>` holding one text node per
  character) between the two per-block sentinel spans;
* a `Block` is the list of content spans of one block container;
* the document is the list of block containers between the two document
  indicator elements;
* a `DocumentCursor` stores `(block, spanElement, textNode)`; `textNode = null`
  is the beginning-of-block state (the span is then the first content span), and
  otherwise the cursor sits immediately after its text node.  We represent the
  in-block part as `Option (Nat × Nat)`: `none` for the beginning-of-block
  state and `some (s, k)` for "after character `k` of span `s`";
* `DocumentModel.blockPositions` is a `SnapshotTokenProvider` whose counter we
  carry in `DocState.pos`.

All definitions are translated from the source files
`src/unnamed/part_001` (DocumentModel, second revision), `Block.ts`,
`DocumentCursor.ts`, `ISnapshotToken.ts`, `TokenBasedValue.ts` and
`src/unnamed/part_008` (DocumentCache).
-/

namespace TextRight

/-- `var maxIntBeforeRollover = 21474836400` (ISnapshotToken.ts). -/
def maxIntBeforeRollover : Nat := 21474836400

/-- `SnapshotTokenProvider.increment`: `internalToken++`, wrapping to 1 once the
counter exceeds `maxIntBeforeRollover`. -/
def increment (t : Nat) : Nat :=
  if t + 1 > maxIntBeforeRollover then 1 else t + 1

/-- A content span: its `className` (the style tag) and its characters, one DOM
text node per character. -/
structure Run where
  style : String
  chars : List Char
deriving DecidableEq, Repr

/-- A block: the list of content spans strictly between the `firstChildElement`
and `lastChildElement` sentinel spans. -/
structure Block where
  runs : List Run
deriving DecidableEq, Repr

/-- In-block cursor component: `none` = beginning-of-block (`textNode = null`,
span = first content span); `some (s, k)` = after character `k` of span `s`. -/
abbrev Pos := Option (Nat × Nat)

/-- A document cursor: block index plus in-block position. -/
structure Cursor where
  b : Nat
  p : Pos
deriving DecidableEq, Repr

/-- Document state: the block list plus the `blockPositions` snapshot-token
counter of the `DocumentModel`. -/
structure DocState where
  blocks : List Block
  pos : Nat
deriving DecidableEq, Repr

/-- `Block.createNewBlock`: one style-less empty content span between the
sentinels. -/
def Block.emptyBlock : Block := ⟨[⟨"", []⟩]⟩

/-- `Block.isEmpty`: the first content span has no child nodes. -/
def Block.isEmpty (bl : Block) : Bool :=
  match bl.runs with
  | [] => true
  | r :: _ => r.chars.isEmpty

/-- Number of characters of span `s` (0 when the span does not exist). -/
def Block.lenAt (bl : Block) (s : Nat) : Nat :=
  (bl.runs.getD s ⟨"", []⟩).chars.length

/-- Total number of characters of a block. -/
def Block.textLen (bl : Block) : Nat :=
  (bl.runs.map fun r => r.chars.length).sum

/-- The block's text: concatenation of its spans' characters. -/
def Block.text (bl : Block) : List Char :=
  (bl.runs.map fun r => r.chars).flatten

/-- The block at index `i` of the document's block list. -/
def blockAt (bs : List Block) (i : Nat) : Block :=
  bs.getD i ⟨[]⟩

/-- Character offset of an in-block position from the block's beginning:
`none` is offset 0; `some (s, k)` sits after `k + 1` characters of span `s`
plus everything before span `s`. -/
def posOf (bl : Block) : Pos → Nat
  | none => 0
  | some (s, k) => ((bl.runs.take s).map fun r => r.chars.length).sum + k + 1

/-- `DocumentCursor.isEndOfSpan`: `textNode === spanElement.lastChild`.  At the
beginning-of-block state the span is the first content span and
`textNode = null`, so this holds exactly when that span is empty. -/
def isEndOfSpanP (bl : Block) : Pos → Bool
  | none => bl.lenAt 0 == 0
  | some (s, k) => k + 1 == bl.lenAt s

/-- Index of the span the cursor's `spanElement` references. -/
def spanIdxP : Pos → Nat
  | none => 0
  | some (s, _) => s

/-- `DocumentCursor.isEndOfBlock`: end of span and the next span is the
trailing sentinel (the span is the last content span). -/
def isEndOfBlockP (bl : Block) (p : Pos) : Bool :=
  isEndOfSpanP bl p && (spanIdxP p + 1 == bl.runs.length)

/-- `DocumentCursor.moveForwardInBlock`; `none` means it returned `false`
(already at the end of the block, cursor untouched). -/
def moveForwardInBlock (bl : Block) (p : Pos) : Option Pos :=
  if isEndOfBlockP bl p then none
  else some (match p with
    | none => some (0, 0)
    | some (s, k) => if k + 1 == bl.lenAt s then some (s + 1, 0) else some (s, k + 1))

/-- `DocumentCursor.moveBackwardInBlock`; `none` means it returned `false`
(already at the beginning of the block, cursor untouched). -/
def moveBackwardInBlock (bl : Block) (p : Pos) : Option Pos :=
  match p with
  | none => none
  | some (s, k) =>
    if k == 0 then
      if s == 0 then some none
      else some (some (s - 1, bl.lenAt (s - 1) - 1))
    else some (some (s, k - 1))

/-- `DocumentCursor.moveToEndOf`: span = last content span, text node = its
last child (`null`, i.e. the beginning state, when that span is empty). -/
def moveToEndOfP (bl : Block) : Pos :=
  let s := bl.runs.length - 1
  if bl.lenAt s == 0 then none else some (s, bl.lenAt s - 1)

/-- `DocumentCursor.moveForward`: step in-block, else cross to the beginning of
the next block; `false` at the end of the document. -/
def moveForwardD (bs : List Block) (c : Cursor) : Bool × Cursor :=
  match moveForwardInBlock (blockAt bs c.b) c.p with
  | some p2 => (true, ⟨c.b, p2⟩)
  | none => if c.b + 1 == bs.length then (false, c) else (true, ⟨c.b + 1, none⟩)

/-- `DocumentCursor.moveBackwards`: step in-block, else cross to the end of the
previous block; `false` at the beginning of the document. -/
def moveBackwardsD (bs : List Block) (c : Cursor) : Bool × Cursor :=
  match moveBackwardInBlock (blockAt bs c.b) c.p with
  | some p2 => (true, ⟨c.b, p2⟩)
  | none =>
    if c.b == 0 then (false, c)
    else (true, ⟨c.b - 1, moveToEndOfP (blockAt bs (c.b - 1))⟩)

/-- Where `DocumentCursor.add` inserts: at index 0 of span 0 when the cursor is
at the beginning of the block (`insertBefore(element, spanElement.firstChild)`),
otherwise after the cursor's text node
(`insertBefore(element, textNode.nextSibling)`). -/
def insPoint : Pos → Nat × Nat
  | none => (0, 0)
  | some (s, k) => (s, k + 1)

/-- Insert characters into a span at a child index. -/
def Run.insertChars (r : Run) (i : Nat) (frag : List Char) : Run :=
  ⟨r.style, r.chars.take i ++ frag ++ r.chars.drop i⟩

/-- `DocumentCursor.add`: splice the fragment's text nodes into the cursor's
span at the insertion point. -/
def Block.addAt (bl : Block) (p : Pos) (frag : List Char) : Block :=
  let si := insPoint p
  let r := bl.runs.getD si.1 ⟨"", []⟩
  ⟨bl.runs.set si.1 (r.insertChars si.2 frag)⟩

/-- DOM references survive an insertion: a text node that sat at child index
`k ≥ insI` of span `insS` sits at `k + m` after `m` nodes are inserted at
`insI`; all other references are untouched. -/
def shiftForInsert (insS insI m : Nat) : Nat × Nat → Nat × Nat
  | (s, k) => if s == insS && insI ≤ k then (s, k + m) else (s, k)

/-- `DocumentModel.addElementsToCursorAndAdvance`: clone the cursor and try to
step it forward in-block (`isAtEnd` when that fails), insert the fragment at
the cursor, then either snap to the end of the block or step the clone (whose
node references moved with the insertion) backwards once. -/
def addElementsToCursorAndAdvance (bs : List Block) (c : Cursor) (frag : List Char) :
    List Block × Cursor :=
  let bl := blockAt bs c.b
  let fwd := moveForwardInBlock bl c.p
  let bs2 := bs.set c.b (bl.addAt c.p frag)
  match fwd with
  | none => (bs2, ⟨c.b, moveToEndOfP (blockAt bs2 c.b)⟩)
  | some p2 =>
    let pS : Pos := p2.map (shiftForInsert (insPoint c.p).1 (insPoint c.p).2 frag.length)
    (bs2, (moveBackwardsD bs2 ⟨c.b, pS⟩).2)

/-- `DocumentModel.appendToBlock`: capture the last content span, drop the
single empty span of an empty block, insert the content before the trailing
sentinel, then coalesce the captured span with its new following span when
their class names agree (no following span exists when the captured span was
the removed empty one). -/
def appendToBlockB (bl : Block) (content : List Run) : Block :=
  let lastRemoved := bl.isEmpty && bl.runs.length == 1
  let runs1 := if bl.isEmpty then bl.runs.tail else bl.runs
  if lastRemoved then ⟨runs1 ++ content⟩
  else
    match runs1.getLast?, content with
    | some lastC, f :: rest =>
      if lastC.style == f.style then
        ⟨runs1.dropLast ++ ⟨lastC.style, lastC.chars ++ f.chars⟩ :: rest⟩
      else ⟨runs1 ++ content⟩
    | _, _ => ⟨runs1 ++ content⟩

/-- `insertBlockBefore` / `insertBlockAfter`: structural list insertion at an
index. -/
def insertBlockAtIdx (bs : List Block) (n : Nat) (nb : Block) : List Block :=
  bs.take n ++ nb :: bs.drop n

/-- `HtmlUtils.removeElement` of a block container: structural list removal. -/
def removeBlockAtIdx (bs : List Block) (n : Nat) : List Block :=
  bs.take n ++ bs.drop (n + 1)

/-- `DocumentModel.splitBlock` (rev. 2, src/unnamed/part_001 lines 624-677):
bumps the snapshot token, then either inserts a blank block before (cursor at
beginning of block; cursor moves to the end of the blank block), inserts a
blank block after (cursor at end of block; cursor untouched), or extracts the
content from the cursor to the end of the block into a new following block,
dividing the cursor's span at the character offset when the cursor is not at
its end.  The cursor's text node stays in the retained span, so the final
`setTo` fix-up leaves its position unchanged. -/
def splitBlockD (d : DocState) (c : Cursor) : DocState × Cursor :=
  let t2 := increment d.pos
  let bl := blockAt d.blocks c.b
  match c.p with
  | none =>
    (⟨insertBlockAtIdx d.blocks c.b Block.emptyBlock, t2⟩, ⟨c.b, moveToEndOfP Block.emptyBlock⟩)
  | some (s, k) =>
    if isEndOfBlockP bl (some (s, k)) then
      (⟨insertBlockAtIdx d.blocks (c.b + 1) Block.emptyBlock, t2⟩, c)
    else
      let r := bl.runs.getD s ⟨"", []⟩
      let keepRuns :=
        if k + 1 == bl.lenAt s then bl.runs.take (s + 1)
        else bl.runs.take s ++ [⟨r.style, r.chars.take (k + 1)⟩]
      let movedRuns :=
        if k + 1 == bl.lenAt s then bl.runs.drop (s + 1)
        else Run.mk r.style (r.chars.drop (k + 1)) :: bl.runs.drop (s + 1)
      let newBlock := appendToBlockB Block.emptyBlock movedRuns
      (⟨insertBlockAtIdx (d.blocks.set c.b ⟨keepRuns⟩) (c.b + 1) newBlock, t2⟩, c)

/-- `DocumentModel.mergeBlocks` (rev. 2, src/unnamed/part_001 lines 587-614):
bump the token; an empty `blockToMerge` is just removed (cursor = end of
`mergeInto`); otherwise extract its content, remove it, and append, returning
the beginning of an initially-empty `mergeInto` or else the seam cursor
obtained by stepping back in-block before the append and forward after it.
`i` is `mergeInto`'s index, `j` is `blockToMerge`'s; `i2` is `mergeInto`'s
index once `blockToMerge` is gone. -/
def mergeBlocksD (d : DocState) (i j : Nat) : DocState × Cursor :=
  let t2 := increment d.pos
  let a := blockAt d.blocks i
  let b := blockAt d.blocks j
  let bs1 := removeBlockAtIdx d.blocks j
  let i2 := if j < i then i - 1 else i
  if b.isEmpty then
    (⟨bs1, t2⟩, ⟨i2, moveToEndOfP a⟩)
  else if a.isEmpty then
    (⟨bs1.set i2 (appendToBlockB a b.runs), t2⟩, ⟨i2, none⟩)
  else
    let p0 := moveToEndOfP a
    let p1 := (moveBackwardInBlock a p0).getD p0
    let bs2 := bs1.set i2 (appendToBlockB a b.runs)
    (⟨bs2, t2⟩, (moveForwardD bs2 ⟨i2, p1⟩).2)

/-- The fragment loop of `insertTextAtCursor`: one text-node fragment per line;
a carriage return is skipped outright, a newline starts a new fragment, any
other character is appended to the current fragment. -/
def splitFragments : List Char → List (List Char)
  | [] => [[]]
  | ch :: rest =>
    if ch == '\r' then splitFragments rest
    else if ch == '\n' then [] :: splitFragments rest
    else
      match splitFragments rest with
      | f :: fs => (ch :: f) :: fs
      | [] => [[ch]]

/-- The `for (var i = 1; ...)` loop of `insertTextAtCursor`: for each later
fragment, split the block at the cursor, move the cursor forward into the new
block, and insert the fragment there. -/
def insertFragmentsLoop : DocState → Cursor → List (List Char) → DocState × Cursor
  | d, c, [] => (d, c)
  | d, c, f :: fs =>
    let r1 := splitBlockD d c
    let c2 := (moveForwardD r1.1.blocks r1.2).2
    let r2 := addElementsToCursorAndAdvance r1.1.blocks c2 f
    insertFragmentsLoop ⟨r2.1, r1.1.pos⟩ r2.2 fs

/-- `DocumentModel.insertTextAtCursor`: split the text into fragments, insert
fragment 0 at the cursor, then run the fragment loop. -/
def insertTextAtCursorD (d : DocState) (c : Cursor) (text : List Char) : DocState × Cursor :=
  let frags := splitFragments text
  let r0 := addElementsToCursorAndAdvance d.blocks c (frags.headD [])
  insertFragmentsLoop ⟨r0.1, d.pos⟩ r0.2 frags.tail

/-- `DocumentModel.insertText` (rev. 2): reset the block's size cache (geometry,
modelled separately), bump `blockPositions` once, and delegate to
`insertTextAtCursor`. -/
def insertTextD (d : DocState) (c : Cursor) (text : List Char) : DocState × Cursor :=
  insertTextAtCursorD ⟨d.blocks, increment d.pos⟩ c text

/-- `SnapshotTokenProvider.isValid`: strict equality of the stored token (which
starts out undefined, here `none`) with the provider's current token. -/
def isValidTok (providerToken : Nat) (t : Option Nat) : Bool :=
  t == some providerToken

/-- `SnapshotTokenProvider.defaultToken` (the value 0). -/
def defaultToken : Nat := 0

/-- `TokenBasedValueFromOneParent`: a cached value plus the token it was
computed at; both fields start out undefined (`none`). -/
structure TokenBasedValueFromOneParent (α : Type) where
  token : Option Nat
  value : Option α
deriving DecidableEq, Repr

/-- `TokenBasedValueFromOneParent.getValue`: return the stored value when the
stored token is still valid, otherwise recompute via `calculateValue`, store
the new value and the current token, and return the new value. -/
def getValue {α β : Type} (providerToken : Nat) (calculateValue : β → α)
    (st : TokenBasedValueFromOneParent α) (parent : β) :
    Option α × TokenBasedValueFromOneParent α :=
  if isValidTok providerToken st.token then (st.value, st)
  else
    let v := calculateValue parent
    (some v, ⟨some providerToken, some v⟩)

/-- The `lastBlockIndicator` element: walking `nextElementSibling` past the
final block reaches it before reaching `null`.  Block ids in a modelled
document must avoid this id. -/
def sentinelBlockId : Nat := 0

/-- Per-element `BlockCache` store: `(element id, (blockIndex, blockIndexToken))`
entries, newest first; a missing entry is a freshly created cache whose fields
are still undefined. -/
abbrev CacheMap := List (Nat × Nat × Nat)

/-- Read an element's `BlockCache` (both fields, which the code always writes
together). -/
def lookupCache (m : CacheMap) (id : Nat) : Option (Nat × Nat) :=
  m.lookup id

/-- Write an element's `BlockCache` fields. -/
def setCache (m : CacheMap) (id : Nat) (v : Nat × Nat) : CacheMap :=
  (id, v) :: m

/-- `DocumentCache`: its own `indexTokenProvider` (counter starts at 1), the
remembered resume element, and the per-element caches. -/
structure DocumentCacheS where
  indexToken : Nat
  lastBlockElementIndexed : Option Nat
  caches : CacheMap
deriving DecidableEq, Repr

/-- A freshly constructed `DocumentCache`. -/
def initialDocumentCache : DocumentCacheS := ⟨1, none, []⟩

/-- `DocumentCache.invalidateIndicesBefore`: remember the block's predecessor
(`null` when the block is first in the document) and bump the index token. -/
def invalidateIndicesBefore (doc : List Nat) (dc : DocumentCacheS) (blockId : Nat) :
    DocumentCacheS :=
  let prev :=
    match doc.findIdx? (fun e => e == blockId) with
    | some 0 => none
    | some (n + 1) => doc.getD n sentinelBlockId |> some
    | none => none
  ⟨increment dc.indexToken, prev, dc.caches⟩

/-- The `while (currentElement !== null && currentElement !== container)` loop
of `getIndexOf`: assign `currentIndex` to each visited element's cache and
advance.  Returns the found index (or `none` when the walk fell off the end),
the updated caches, and the element `currentCache` points at when the loop
exits — the element processed last, not the target. -/
def reindexLoop (tok : Nat) (target : Nat) :
    List Nat → Nat → CacheMap → Nat → Option Nat × CacheMap × Nat
  | [], _, m, lastProc => (none, m, lastProc)
  | e :: rest, idx, m, lastProc =>
    if e == target then (some idx, m, lastProc)
    else reindexLoop tok target rest (idx + 1) (setCache m e (idx, tok)) e

/-- `DocumentCache.getIndexOf` (src/unnamed/part_008 lines 37-94): exact-cache
hit when the stored token is current; otherwise walk from the remembered
resume point (when its cache is still valid) or from the first block,
assigning indices, and perform the trailing `currentCache.blockIndex =
currentIndex` assignment through the loop's `currentCache` variable. -/
def getIndexOf (doc : List Nat) (dc : DocumentCacheS) (target : Nat) :
    Int × DocumentCacheS :=
  let hit :=
    match lookupCache dc.caches target with
    | some (idx, tok) => if tok == dc.indexToken then some idx else none
    | none => none
  match hit with
  | some idx => ((idx : Int), dc)
  | none =>
    let elems := doc ++ [sentinelBlockId]
    let resume :=
      match dc.lastBlockElementIndexed with
      | some le =>
        match lookupCache dc.caches le with
        | some (idx, tok) => if tok == dc.indexToken then some (le, idx) else none
        | none => none
      | none => none
    let start :=
      match resume with
      | some (le, idx) => (elems.dropWhile (fun e => e != le), idx)
      | none => (elems, 0)
    match reindexLoop dc.indexToken target start.1 start.2 dc.caches
        (start.1.headD sentinelBlockId) with
    | (none, m, _) => (-1, ⟨dc.indexToken, dc.lastBlockElementIndexed, m⟩)
    | (some idx, m, lastProc) =>
      ((idx : Int), ⟨dc.indexToken, some target, setCache m lastProc (idx, dc.indexToken)⟩)

/-- The ordinal index of a block: a naive scan from the document's first
block. -/
def naiveIndexOf (doc : List Nat) (blockId : Nat) : Option Nat :=
  doc.findIdx? (fun e => e == blockId)

/-- Style-distinctness of adjacent spans. -/
def StylesOk (rs : List Run) : Prop :=
  List.Chain' (fun r1 r2 : Run => r1.style ≠ r2.style) rs

/-- Block well-formedness: at least one content span; an empty span only as the
sole span of an empty block; no two adjacent spans of equal style. -/
def ValidBlock (bl : Block) : Prop :=
  bl.runs ≠ [] ∧
  (∀ r ∈ bl.runs, r.chars = [] → bl.runs.length = 1) ∧
  StylesOk bl.runs

/-- All blocks of a document are well-formed. -/
def ValidBlocks (bs : List Block) : Prop :=
  ∀ bl ∈ bs, ValidBlock bl

/-- All blocks of a document state are well-formed. -/
def ValidDoc (d : DocState) : Prop :=
  ValidBlocks d.blocks

/-- In-block position well-formedness: the referenced span exists and the
character offset addresses one of its text nodes. -/
def ValidPos (bl : Block) (p : Pos) : Prop :=
  match p with
  | none => True
  | some (s, k) => s < bl.runs.length ∧ k < bl.lenAt s

instance (bl : Block) (p : Pos) : Decidable (ValidPos bl p) :=
  match p with
  | none => .isTrue trivial
  | some (_, _) => inferInstanceAs (Decidable (_ ∧ _))

/-- Cursor well-formedness: a live block and a well-formed in-block position. -/
def ValidCursor (bs : List Block) (c : Cursor) : Prop :=
  c.b < bs.length ∧ ValidPos (blockAt bs c.b) c.p

/-- What `removeBlock` / `Range.extractContents` hand to `appendToBlock`: a
nonempty span list, no empty span, no two adjacent spans of equal style. -/
def ValidContent (content : List Run) : Prop :=
  content ≠ [] ∧ (∀ r ∈ content, r.chars ≠ []) ∧ StylesOk content

/-- One structural mutation of the document model, as named by the spec:
`insertText`, `splitBlock`, `mergeBlocks`, `appendToBlock` (with content as its
two call sites produce it) or `removeBlock`. -/
inductive Step : DocState → DocState → Prop
  | insertText (d : DocState) (c : Cursor) (text : List Char) :
      ValidCursor d.blocks c → Step d (insertTextD d c text).1
  | splitBlock (d : DocState) (c : Cursor) :
      ValidCursor d.blocks c → Step d (splitBlockD d c).1
  | mergeBlocks (d : DocState) (i j : Nat) :
      i < d.blocks.length → j < d.blocks.length → i ≠ j →
      Step d (mergeBlocksD d i j).1
  | appendToBlock (d : DocState) (i : Nat) (content : List Run) :
      i < d.blocks.length → ValidContent content →
      Step d ⟨d.blocks.set i (appendToBlockB (blockAt d.blocks i) content), d.pos⟩
  | removeBlock (d : DocState) (i : Nat) :
      i < d.blocks.length → Step d ⟨removeBlockAtIdx d.blocks i, d.pos⟩

/-- Character count of a span list. -/
def sumLens (rs : List Run) : Nat :=
  (rs.map fun r => r.chars.length).sum

/-- Character content of a span list. -/
def textOfRuns (rs : List Run) : List Char :=
  (rs.map fun r => r.chars).flatten

theorem posOf_none (bl : Block) : posOf bl none = 0 := rfl

theorem posOf_some (bl : Block) (s k : Nat) :
    posOf bl (some (s, k)) = sumLens (bl.runs.take s) + k + 1 := rfl

theorem textLen_eq (bl : Block) : bl.textLen = sumLens bl.runs := rfl

theorem text_eq (bl : Block) : bl.text = textOfRuns bl.runs := rfl

theorem sumLens_append (rs ts : List Run) :
    sumLens (rs ++ ts) = sumLens rs + sumLens ts := by
  simp [sumLens]

theorem textOfRuns_append (rs ts : List Run) :
    textOfRuns (rs ++ ts) = textOfRuns rs ++ textOfRuns ts := by
  simp [textOfRuns]

theorem length_textOfRuns (rs : List Run) : (textOfRuns rs).length = sumLens rs := by
  simp [textOfRuns, sumLens]
  induction rs with
  | nil => simp
  | cons r rs ih => simp [ih]

theorem lenAt_eq_of_lt {bl : Block} {s : Nat} (h : s < bl.runs.length) :
    bl.lenAt s = bl.runs[s].chars.length := by
  unfold Block.lenAt
  rw [List.getD_eq_getElem _ _ h]

theorem runs_getD_eq_getElem {rs : List Run} {s : Nat} (h : s < rs.length) :
    rs.getD s ⟨"", []⟩ = rs[s] :=
  List.getD_eq_getElem rs _ h

theorem sumLens_take_succ {rs : List Run} {s : Nat} (h : s < rs.length) :
    sumLens (rs.take (s + 1)) = sumLens (rs.take s) + rs[s].chars.length := by
  have h2 : s < (rs.map fun r => r.chars.length).length := by simpa using h
  have := List.sum_take_succ (rs.map fun r => r.chars.length) s h2
  simpa [sumLens, List.map_take] using this

theorem sumLens_take_le (rs : List Run) (s : Nat) :
    sumLens (rs.take s) ≤ sumLens rs := by
  conv_rhs => rw [← List.take_append_drop s rs]
  rw [sumLens_append]
  omega

theorem sumLens_take_mono (rs : List Run) {s t : Nat} (h : s ≤ t) :
    sumLens (rs.take s) ≤ sumLens (rs.take t) := by
  have : rs.take s = (rs.take t).take s := by rw [List.take_take, Nat.min_eq_left h]
  rw [this]
  exact sumLens_take_le _ _

theorem sumLens_take_length (rs : List Run) : sumLens (rs.take rs.length) = sumLens rs := by
  simp

theorem valid_isEmpty_true {bl : Block} (hv : ValidBlock bl) (he : bl.isEmpty = true) :
    ∃ r : Run, bl.runs = [r] ∧ r.chars = [] := by
  obtain ⟨hne, hsole, _⟩ := hv
  match hr : bl.runs with
  | [] => exact absurd hr hne
  | r :: rest =>
    have hrc : r.chars = [] := by
      have := he
      rw [Block.isEmpty, hr] at this
      simpa [List.isEmpty_iff] using this
    have hlen : bl.runs.length = 1 := hsole r (by rw [hr]; exact List.mem_cons_self r rest) hrc
    rw [hr] at hlen
    simp at hlen
    exact ⟨r, by simp [hr, hlen], hrc⟩

theorem valid_length_one_of_empty {bl : Block} (hv : ValidBlock bl) (he : bl.isEmpty = true) :
    bl.runs.length = 1 ∧ bl.lenAt 0 = 0 ∧ bl.textLen = 0 := by
  obtain ⟨r, hr, hrc⟩ := valid_isEmpty_true hv he
  refine ⟨by simp [hr], ?_, ?_⟩
  · simp [Block.lenAt, hr, hrc]
  · simp [Block.textLen, hr, hrc]

theorem valid_lenAt_pos {bl : Block} (hv : ValidBlock bl) (he : bl.isEmpty = false)
    {s : Nat} (hs : s < bl.runs.length) : 0 < bl.lenAt s := by
  obtain ⟨hne, hsole, _⟩ := hv
  rw [lenAt_eq_of_lt hs]
  by_contra h
  have hc : bl.runs[s].chars = [] := by
    have : bl.runs[s].chars.length = 0 := by omega
    exact List.length_eq_zero.mp this
  have hlen : bl.runs.length = 1 := hsole _ (bl.runs.getElem_mem hs) hc
  have hs0 : s = 0 := by omega
  subst hs0
  match hr : bl.runs with
  | [] => exact hne hr
  | r :: rest =>
    simp only [Block.isEmpty, hr] at he
    have hr0 : bl.runs[0] = r := by simp [hr]
    rw [hr0] at hc
    rw [hc] at he
    simp at he

theorem valid_isEmpty_false {bl : Block} (hv : ValidBlock bl) (he : bl.isEmpty = false) :
    0 < bl.textLen := by
  have h0 : 0 < bl.runs.length := List.length_pos.mpr hv.1
  have h1 := valid_lenAt_pos hv he h0
  rw [lenAt_eq_of_lt h0] at h1
  have h3 : bl.runs[0].chars.length ≤ bl.textLen := by
    rw [textLen_eq]
    have h4 := sumLens_take_succ h0
    have h2 := sumLens_take_le bl.runs 1
    simp at h4
    omega
  omega

theorem sumLens_take_add_drop (rs : List Run) (n : Nat) :
    sumLens (rs.take n) + sumLens (rs.drop n) = sumLens rs := by
  rw [← sumLens_append, List.take_append_drop]

theorem posOf_le_textLen {bl : Block} {p : Pos} (hp : ValidPos bl p) :
    posOf bl p ≤ bl.textLen := by
  match p with
  | none => simp [posOf_none]
  | some (s, k) =>
    obtain ⟨hs, hk⟩ := hp
    rw [posOf_some, textLen_eq]
    have h1 := sumLens_take_succ hs
    have h2 := sumLens_take_le bl.runs (s + 1)
    rw [lenAt_eq_of_lt hs] at hk
    omega

theorem posOf_inj {bl : Block} {p q : Pos} (hp : ValidPos bl p) (hq : ValidPos bl q)
    (h : posOf bl p = posOf bl q) : p = q := by
  have key : ∀ s k s2 k2, ValidPos bl (some (s, k)) → s < s2 →
      posOf bl (some (s, k)) < posOf bl (some (s2, k2)) := by
    intro s k s2 k2 hv hlt
    obtain ⟨hs, hk⟩ := hv
    rw [posOf_some, posOf_some]
    have h1 := sumLens_take_succ hs
    have h2 := sumLens_take_mono bl.runs (show s + 1 ≤ s2 from hlt)
    rw [lenAt_eq_of_lt hs] at hk
    omega
  match p, q with
  | none, none => rfl
  | none, some (s, k) => rw [posOf_none, posOf_some] at h; omega
  | some (s, k), none => rw [posOf_none, posOf_some] at h; omega
  | some (s, k), some (s2, k2) =>
    rcases Nat.lt_trichotomy s s2 with hlt | heq | hgt
    · exact absurd h (Nat.ne_of_lt (key s k s2 k2 hp hlt))
    · subst heq
      rw [posOf_some, posOf_some] at h
      have : k = k2 := by omega
      rw [this]
    · exact absurd h.symm (Nat.ne_of_lt (key s2 k2 s k hq hgt))

theorem isEndOfBlockP_iff_posOf {bl : Block} {p : Pos} (hv : ValidBlock bl)
    (hp : ValidPos bl p) :
    isEndOfBlockP bl p = true ↔ posOf bl p = bl.textLen := by
  match p with
  | none =>
    simp only [isEndOfBlockP, isEndOfSpanP, spanIdxP, Bool.and_eq_true, beq_iff_eq,
      posOf_none]
    constructor
    · rintro ⟨h0, h1⟩
      have hlen : bl.runs.length = 1 := by omega
      rw [textLen_eq]
      have h2 := sumLens_take_succ (show 0 < bl.runs.length by omega)
      have h3 : sumLens (bl.runs.take bl.runs.length) = sumLens bl.runs :=
        sumLens_take_length bl.runs
      rw [lenAt_eq_of_lt (show 0 < bl.runs.length by omega)] at h0
      rw [hlen] at h3
      have hz : sumLens (bl.runs.take 0) = 0 := rfl
      simp only [Nat.zero_add] at h2
      omega
    · intro h0
      have hne := hv.1
      have hlen : 0 < bl.runs.length := List.length_pos.mpr hne
      by_cases he : bl.isEmpty = true
      · obtain ⟨h1, h2, _⟩ := valid_length_one_of_empty hv he
        exact ⟨h2, by omega⟩
      · exact absurd (valid_isEmpty_false hv (by simpa using he)) (by omega)
  | some (s, k) =>
    obtain ⟨hs, hk⟩ := hp
    simp only [isEndOfBlockP, isEndOfSpanP, spanIdxP, Bool.and_eq_true, beq_iff_eq,
      posOf_some]
    constructor
    · rintro ⟨h0, h1⟩
      rw [textLen_eq]
      have h2 := sumLens_take_succ hs
      have h3 := sumLens_take_length bl.runs
      rw [lenAt_eq_of_lt hs] at h0
      have h4 : s + 1 = bl.runs.length := by omega
      rw [h4] at h2
      omega
    · intro h0
      have h2 := sumLens_take_succ hs
      rw [lenAt_eq_of_lt hs] at hk ⊢
      have hkeq : k + 1 = bl.runs[s].chars.length := by
        by_contra hne2
        have hlt : k + 1 < bl.runs[s].chars.length := by omega
        have h5 := sumLens_take_le bl.runs (s + 1)
        rw [textLen_eq] at h0
        omega
      refine ⟨hkeq, ?_⟩
      by_contra hne2
      have hslt : s + 1 < bl.runs.length := by omega
      have hlen2 : 2 ≤ bl.runs.length := by omega
      have hemp : bl.isEmpty = false := by
        by_contra he
        have := (valid_length_one_of_empty hv (by simpa using he)).1
        omega
      have h6 := valid_lenAt_pos hv hemp hslt
      have h7 := sumLens_take_succ hslt
      have h8 := sumLens_take_le bl.runs (s + 1 + 1)
      rw [lenAt_eq_of_lt hslt] at h6
      rw [textLen_eq] at h0
      omega

theorem moveToEndOfP_spec {bl : Block} (hv : ValidBlock bl) :
    ValidPos bl (moveToEndOfP bl) ∧ posOf bl (moveToEndOfP bl) = bl.textLen := by
  have hne := hv.1
  have hlen : 0 < bl.runs.length := List.length_pos.mpr hne
  unfold moveToEndOfP
  by_cases h0 : bl.lenAt (bl.runs.length - 1) = 0
  · simp only [h0, beq_self_eq_true, if_true]
    refine ⟨trivial, ?_⟩
    rw [posOf_none]
    have hs : bl.runs.length - 1 < bl.runs.length := by omega
    rw [lenAt_eq_of_lt hs] at h0
    by_cases he : bl.isEmpty = true
    · exact ((valid_length_one_of_empty hv he).2.2).symm
    · have := valid_lenAt_pos hv (by simpa using he) hs
      rw [lenAt_eq_of_lt hs] at this
      omega
  · have hb : (bl.lenAt (bl.runs.length - 1) == 0) = false := by
      simp [h0]
    simp only [hb, Bool.false_eq_true, if_false]
    have hs : bl.runs.length - 1 < bl.runs.length := by omega
    refine ⟨⟨hs, by omega⟩, ?_⟩
    rw [posOf_some, textLen_eq]
    have h2 := sumLens_take_succ hs
    have h3 := sumLens_take_length bl.runs
    rw [lenAt_eq_of_lt hs] at h0 ⊢
    have h4 : bl.runs.length - 1 + 1 = bl.runs.length := by omega
    rw [h4] at h2
    omega

theorem moveForwardInBlock_spec {bl : Block} {p : Pos} (hv : ValidBlock bl)
    (hp : ValidPos bl p) (he : isEndOfBlockP bl p = false) :
    ∃ s2 k2, moveForwardInBlock bl p = some (some (s2, k2)) ∧
      ValidPos bl (some (s2, k2)) ∧
      posOf bl (some (s2, k2)) = posOf bl p + 1 := by
  have hne := hv.1
  have hlen : 0 < bl.runs.length := List.length_pos.mpr hne
  unfold moveForwardInBlock
  rw [he]
  simp only [if_false, Bool.false_eq_true]
  match p with
  | none =>
    refine ⟨0, 0, rfl, ⟨hlen, ?_⟩, ?_⟩
    · by_contra h0
      have h1 : bl.lenAt 0 = 0 := by omega
      have h2 : bl.isEmpty = true := by
        match hr : bl.runs with
        | [] => exact absurd hr hne
        | r :: rest =>
          simp only [Block.isEmpty, hr]
          rw [Block.lenAt, hr] at h1
          simpa [List.isEmpty_iff, List.length_eq_zero] using h1
      obtain ⟨hl1, hl0, _⟩ := valid_length_one_of_empty hv h2
      rw [isEndOfBlockP, isEndOfSpanP] at he
      simp [hl0, hl1, spanIdxP] at he
    · rw [posOf_some, posOf_none]
      simp [sumLens]
  | some (s, k) =>
    obtain ⟨hs, hk⟩ := hp
    by_cases hes : k + 1 = bl.lenAt s
    · have hb : (k + 1 == bl.lenAt s) = true := by simpa using hes
      simp only [hb, if_true]
      rw [isEndOfBlockP, isEndOfSpanP, spanIdxP] at he
      simp only [hb, Bool.true_and, beq_eq_false_iff_ne, ne_eq] at he
      have hs1 : s + 1 < bl.runs.length := by omega
      have hemp : bl.isEmpty = false := by
        by_contra hee
        have := (valid_length_one_of_empty hv (by simpa using hee)).1
        omega
      refine ⟨s + 1, 0, rfl, ⟨hs1, valid_lenAt_pos hv hemp hs1⟩, ?_⟩
      rw [posOf_some, posOf_some]
      have h2 := sumLens_take_succ hs
      rw [lenAt_eq_of_lt hs] at hes
      omega
    · have hb : (k + 1 == bl.lenAt s) = false := by simpa using hes
      simp only [hb, Bool.false_eq_true, if_false]
      refine ⟨s, k + 1, rfl, ⟨hs, by omega⟩, ?_⟩
      rw [posOf_some, posOf_some]
      omega

theorem moveBackwardInBlock_spec {bl : Block} {s k : Nat} (hv : ValidBlock bl)
    (hp : ValidPos bl (some (s, k))) :
    ∃ q, moveBackwardInBlock bl (some (s, k)) = some q ∧ ValidPos bl q ∧
      posOf bl q + 1 = posOf bl (some (s, k)) := by
  obtain ⟨hs, hk⟩ := hp
  unfold moveBackwardInBlock
  by_cases hk0 : k = 0
  · subst hk0
    simp only [Nat.zero_eq, beq_self_eq_true, if_true]
    by_cases hs0 : s = 0
    · subst hs0
      simp only [beq_self_eq_true, if_true]
      refine ⟨none, rfl, trivial, ?_⟩
      rw [posOf_none, posOf_some]
      simp [sumLens]
    · have hb : (s == 0) = false := by simpa using hs0
      simp only [hb, if_false]
      have hs1 : s - 1 < bl.runs.length := by omega
      have hemp : bl.isEmpty = false := by
        by_contra hee
        have := (valid_length_one_of_empty hv (by simpa using hee)).1
        omega
      have hpos := valid_lenAt_pos hv hemp hs1
      refine ⟨some (s - 1, bl.lenAt (s - 1) - 1), rfl, ⟨hs1, by omega⟩, ?_⟩
      rw [posOf_some, posOf_some]
      have h2 := sumLens_take_succ hs1
      rw [lenAt_eq_of_lt hs1] at hpos ⊢
      have h4 : s - 1 + 1 = s := by omega
      rw [h4] at h2
      omega
  · have hb : (k == 0) = false := by simpa using hk0
    simp only [hb, if_false]
    refine ⟨some (s, k - 1), rfl, ⟨hs, by omega⟩, ?_⟩
    rw [posOf_some, posOf_some]
    omega

theorem blockAt_set_self {bs : List Block} {i : Nat} (h : i < bs.length) (b : Block) :
    blockAt (bs.set i b) i = b := by
  unfold blockAt
  rw [List.getD_eq_getElem _ _ (by simpa using h)]
  simp [List.getElem_set_self]

theorem blockAt_set_ne {bs : List Block} {i j : Nat} (h : i ≠ j) (b : Block) :
    blockAt (bs.set i b) j = blockAt bs j := by
  unfold blockAt
  rw [List.getD_eq_getElem?_getD, List.getD_eq_getElem?_getD, List.getElem?_set_ne h]

/-- C8: for every cursor strictly inside a block (neither at its beginning nor
at its end), `moveForward` followed by `moveBackwards`, with no intervening
mutation, returns the cursor to the same block, span and text node. -/
theorem C8_move_roundtrip (bs : List Block) (c : Cursor)
    (_hb : c.b < bs.length) (hv : ValidBlock (blockAt bs c.b))
    (hp : ValidPos (blockAt bs c.b) c.p)
    (_hbeg : c.p ≠ none) (hend : isEndOfBlockP (blockAt bs c.b) c.p = false) :
    (moveForwardD bs c).1 = true ∧
    (moveBackwardsD bs (moveForwardD bs c).2).1 = true ∧
    (moveBackwardsD bs (moveForwardD bs c).2).2 = c := by
  obtain ⟨s2, k2, hfwd, hp2, hpos2⟩ := moveForwardInBlock_spec hv hp hend
  have hF : moveForwardD bs c = (true, ⟨c.b, some (s2, k2)⟩) := by
    unfold moveForwardD
    rw [hfwd]
  obtain ⟨q, hbwd, hq, hposq⟩ := moveBackwardInBlock_spec hv hp2
  have hqc : q = c.p := by
    apply posOf_inj hq hp
    omega
  have hB : moveBackwardsD bs ⟨c.b, some (s2, k2)⟩ = (true, ⟨c.b, q⟩) := by
    unfold moveBackwardsD
    simp only
    rw [hbwd]
  rw [hF]
  simp only
  rw [hB]
  simp [hqc]

instance instDecStylesOk : (rs : List Run) → Decidable (StylesOk rs)
  | [] => .isTrue List.chain'_nil
  | [r] => .isTrue (List.chain'_singleton r)
  | r1 :: r2 :: rest =>
    letI := instDecStylesOk (r2 :: rest)
    decidable_of_iff (r1.style ≠ r2.style ∧ StylesOk (r2 :: rest))
      (@List.chain'_cons Run (fun a b : Run => a.style ≠ b.style) r1 r2 rest).symm

instance (bl : Block) : Decidable (ValidBlock bl) :=
  inferInstanceAs (Decidable (bl.runs ≠ [] ∧
    (∀ r ∈ bl.runs, r.chars = [] → bl.runs.length = 1) ∧ StylesOk bl.runs))

instance (bs : List Block) : Decidable (ValidBlocks bs) :=
  inferInstanceAs (Decidable (∀ bl ∈ bs, ValidBlock bl))

instance (d : DocState) : Decidable (ValidDoc d) :=
  inferInstanceAs (Decidable (ValidBlocks d.blocks))

instance (bs : List Block) (c : Cursor) : Decidable (ValidCursor bs c) :=
  inferInstanceAs (Decidable (c.b < bs.length ∧ ValidPos (blockAt bs c.b) c.p))

instance (content : List Run) : Decidable (ValidContent content) :=
  inferInstanceAs (Decidable (content ≠ [] ∧
    (∀ r ∈ content, r.chars ≠ []) ∧ StylesOk content))

/-- C8 witness: a concrete interior cursor round-trips. -/
theorem C8_move_roundtrip_witness :
    (0 : Nat) < 1 ∧
    (moveBackwardsD [Block.mk [⟨"", ['a', 'b', 'c']⟩]]
        (moveForwardD [Block.mk [⟨"", ['a', 'b', 'c']⟩]] ⟨0, some (0, 0)⟩).2).2
      = ⟨0, some (0, 0)⟩ := by
  refine ⟨by decide, ?_⟩
  exact (C8_move_roundtrip [Block.mk [⟨"", ['a', 'b', 'c']⟩]] ⟨0, some (0, 0)⟩
    (by decide) (by decide) (by decide) (by decide) (by decide)).2.2

theorem moveBackwardInBlock_isSome (bl : Block) (s k : Nat) :
    ∃ q, moveBackwardInBlock bl (some (s, k)) = some q := by
  unfold moveBackwardInBlock
  by_cases h0 : k == 0 <;> by_cases h1 : s == 0 <;> simp [h0, h1]

theorem moveForwardInBlock_eq_none_iff (bl : Block) (p : Pos) :
    moveForwardInBlock bl p = none ↔ isEndOfBlockP bl p = true := by
  unfold moveForwardInBlock
  by_cases h : isEndOfBlockP bl p <;> simp [h]

theorem moveBackwardsD_none_first {bs : List Block} {c : Cursor}
    (hp : c.p = none) (h0 : c.b = 0) : moveBackwardsD bs c = (false, c) := by
  unfold moveBackwardsD
  rw [hp]
  simp [moveBackwardInBlock, h0]

theorem moveBackwardsD_none_cross {bs : List Block} {c : Cursor}
    (hp : c.p = none) (h0 : c.b ≠ 0) :
    moveBackwardsD bs c = (true, ⟨c.b - 1, moveToEndOfP (blockAt bs (c.b - 1))⟩) := by
  unfold moveBackwardsD
  rw [hp]
  have hb0 : (c.b == 0) = false := by simpa using h0
  simp [moveBackwardInBlock, hb0]

theorem moveBackwardsD_fst_of_some {bs : List Block} {c : Cursor} {s k : Nat}
    (hp : c.p = some (s, k)) : (moveBackwardsD bs c).1 = true := by
  obtain ⟨q, hq⟩ := moveBackwardInBlock_isSome (blockAt bs c.b) s k
  unfold moveBackwardsD
  rw [hp, hq]

theorem moveForwardD_not_end {bs : List Block} {c : Cursor}
    (hend : isEndOfBlockP (blockAt bs c.b) c.p = false) :
    (moveForwardD bs c).1 = true := by
  unfold moveForwardD
  unfold moveForwardInBlock
  rw [hend]
  simp

theorem moveForwardD_end_last {bs : List Block} {c : Cursor}
    (hend : isEndOfBlockP (blockAt bs c.b) c.p = true) (hlast : c.b + 1 = bs.length) :
    moveForwardD bs c = (false, c) := by
  unfold moveForwardD
  unfold moveForwardInBlock
  rw [hend]
  simp [hlast]

theorem moveForwardD_end_cross {bs : List Block} {c : Cursor}
    (hend : isEndOfBlockP (blockAt bs c.b) c.p = true) (hlast : c.b + 1 ≠ bs.length) :
    moveForwardD bs c = (true, ⟨c.b + 1, none⟩) := by
  unfold moveForwardD
  unfold moveForwardInBlock
  rw [hend]
  have hb0 : (c.b + 1 == bs.length) = false := by simpa using hlast
  simp [hb0]

/-- C9: `moveForward`/`moveBackwards` cross into the adjacent block at a block
edge and report the true document boundary — and only it — by returning
`false` with the cursor unmoved; the boundary is a return value, never an
error (the embedding is a total function). -/
theorem C9_document_boundaries (bs : List Block) (c : Cursor) (hb : c.b < bs.length) :
    ((moveBackwardsD bs c).1 = false ↔ (c.b = 0 ∧ c.p = none)) ∧
    ((moveBackwardsD bs c).1 = false → (moveBackwardsD bs c).2 = c) ∧
    (c.p = none → c.b ≠ 0 →
      moveBackwardsD bs c = (true, ⟨c.b - 1, moveToEndOfP (blockAt bs (c.b - 1))⟩)) ∧
    ((moveForwardD bs c).1 = false ↔
      (c.b = bs.length - 1 ∧ isEndOfBlockP (blockAt bs c.b) c.p = true)) ∧
    ((moveForwardD bs c).1 = false → (moveForwardD bs c).2 = c) ∧
    (isEndOfBlockP (blockAt bs c.b) c.p = true → c.b + 1 < bs.length →
      moveForwardD bs c = (true, ⟨c.b + 1, none⟩)) := by
  have hback : ((moveBackwardsD bs c).1 = false ↔ (c.b = 0 ∧ c.p = none)) ∧
      ((moveBackwardsD bs c).1 = false → (moveBackwardsD bs c).2 = c) := by
    match hcp : c.p with
    | none =>
      by_cases h0 : c.b = 0
      · rw [moveBackwardsD_none_first hcp h0]
        simp [h0, hcp]
      · rw [moveBackwardsD_none_cross hcp h0]
        simp [h0]
    | some (s, k) =>
      rw [moveBackwardsD_fst_of_some hcp]
      simp [hcp]
  have hfwd : ((moveForwardD bs c).1 = false ↔
      (c.b = bs.length - 1 ∧ isEndOfBlockP (blockAt bs c.b) c.p = true)) ∧
      ((moveForwardD bs c).1 = false → (moveForwardD bs c).2 = c) := by
    by_cases hend : isEndOfBlockP (blockAt bs c.b) c.p = true
    · by_cases hlast : c.b + 1 = bs.length
      · rw [moveForwardD_end_last hend hlast]
        exact ⟨⟨fun _ => ⟨by omega, hend⟩, fun _ => rfl⟩, fun _ => rfl⟩
      · rw [moveForwardD_end_cross hend hlast]
        refine ⟨⟨fun h => absurd h (by simp), fun h => absurd h.1 (by omega)⟩, ?_⟩
        intro h
        exact absurd h (by simp)
    · have hend2 : isEndOfBlockP (blockAt bs c.b) c.p = false := by simpa using hend
      rw [moveForwardD_not_end hend2]
      refine ⟨⟨fun h => absurd h (by simp), ?_⟩, fun h => absurd h (by simp)⟩
      rintro ⟨h1, h2⟩
      rw [h2] at hend2
      simp at hend2
  refine ⟨hback.1, hback.2, ?_, hfwd.1, hfwd.2, ?_⟩
  · intro hp h0
    exact moveBackwardsD_none_cross hp h0
  · intro hend hlt
    exact moveForwardD_end_cross hend (by omega)

/-- C9 witness: at the very beginning of a two-block document, `moveBackwards`
reports `false` and leaves the cursor unmoved. -/
theorem C9_document_boundaries_witness :
    (0 : Nat) < 2 ∧
    ((moveBackwardsD [Block.emptyBlock, Block.emptyBlock] ⟨0, none⟩).1 = false ↔
      ((0 : Nat) = 0 ∧ (none : Pos) = none)) := by
  refine ⟨by decide, ?_⟩
  exact (C9_document_boundaries [Block.emptyBlock, Block.emptyBlock] ⟨0, none⟩
    (by decide)).1

/-- C7: `getValue` returns the stored cached value exactly when the stored
token equals the provider's current token; otherwise it recomputes through
`calculateValue`, stores the new value with the current token, and returns the
new value — so after a mutation bumps the provider's token, a lookup never
returns a value computed under the stale token. -/
theorem C7_token_guarded_value {α β : Type} (providerToken : Nat) (calcFn : β → α)
    (st : TokenBasedValueFromOneParent α) (parent : β) :
    (st.token = some providerToken →
      getValue providerToken calcFn st parent = (st.value, st)) ∧
    (st.token ≠ some providerToken →
      getValue providerToken calcFn st parent
        = (some (calcFn parent), ⟨some providerToken, some (calcFn parent)⟩)) ∧
    (getValue providerToken calcFn st parent).2.token = some providerToken := by
  by_cases h : st.token = some providerToken
  · have hv : isValidTok providerToken st.token = true := by
      simp [isValidTok, h]
    refine ⟨fun _ => ?_, fun hc => absurd h hc, ?_⟩
    · unfold getValue
      rw [hv]
      simp
    · unfold getValue
      rw [hv]
      simpa using h
  · have hv : isValidTok providerToken st.token = false := by
      simp [isValidTok, h]
    refine ⟨fun hc => absurd hc h, fun _ => ?_, ?_⟩
    · unfold getValue
      rw [hv]
      simp
    · unfold getValue
      rw [hv]
      simp

/-- C7 witness: a stale stored token forces recomputation at a concrete
input. -/
theorem C7_token_guarded_value_witness :
    ((⟨some 1, some 10⟩ : TokenBasedValueFromOneParent Nat).token ≠ some 2) ∧
    getValue 2 (fun n : Nat => n + 1) ⟨some 1, some 10⟩ 5 = (some 6, ⟨some 2, some 6⟩) :=
  ⟨by decide, (C7_token_guarded_value 2 (fun n : Nat => n + 1) ⟨some 1, some 10⟩ 5).2.1
    (by decide)⟩

theorem increment_range {t : Nat} (h1 : 1 ≤ t) (_h2 : t ≤ maxIntBeforeRollover) :
    1 ≤ increment t ∧ increment t ≤ maxIntBeforeRollover := by
  unfold increment
  by_cases h : t + 1 > maxIntBeforeRollover
  · rw [if_pos h]
    exact ⟨le_refl 1, by unfold maxIntBeforeRollover; omega⟩
  · rw [if_neg h]
    omega

/-- C10: starting from 1, any number of `increment` calls keeps the provider's
token in the range 1..21474836400; hence neither the undefined token of a fresh
`TokenBasedValueFromOneParent` nor the static `defaultToken` 0 is ever valid,
and the first `getValue` on a fresh token-guarded value always invokes
`calculateValue` instead of returning the uninitialized cached value. -/
theorem C10_token_range_and_fresh_lookup (n : Nat) :
    1 ≤ increment^[n] 1 ∧ increment^[n] 1 ≤ maxIntBeforeRollover ∧
    isValidTok (increment^[n] 1) none = false ∧
    isValidTok (increment^[n] 1) (some defaultToken) = false ∧
    (∀ (α β : Type) (calcFn : β → α) (parent : β),
      getValue (increment^[n] 1) calcFn ⟨none, none⟩ parent
        = (some (calcFn parent), ⟨some (increment^[n] 1), some (calcFn parent)⟩)) := by
  have hrange : 1 ≤ increment^[n] 1 ∧ increment^[n] 1 ≤ maxIntBeforeRollover := by
    induction n with
    | zero => simp [maxIntBeforeRollover]
    | succ m ih =>
      rw [Function.iterate_succ_apply']
      exact increment_range ih.1 ih.2
  refine ⟨hrange.1, hrange.2, by simp [isValidTok], ?_, ?_⟩
  · have : increment^[n] 1 ≠ defaultToken := by
      unfold defaultToken
      omega
    simp [isValidTok]
    omega
  · intro α β calc2 parent
    unfold getValue
    have hv : isValidTok (increment^[n] 1) (none : Option Nat) = false := by
      simp [isValidTok]
    rw [hv]
    simp

theorem splitFragments_ne_nil (text : List Char) : splitFragments text ≠ [] := by
  induction text with
  | nil => simp [splitFragments]
  | cons ch rest ih =>
    unfold splitFragments
    by_cases h1 : ch == '\r'
    · simp only [h1, if_true]
      exact ih
    · by_cases h2 : ch == '\n'
      · simp [h1, h2]
      · simp only [h1, h2, Bool.false_eq_true, if_false]
        cases hsf : splitFragments rest with
        | nil => simp
        | cons f fs => simp

theorem splitBlockD_pos (d : DocState) (c : Cursor) :
    (splitBlockD d c).1.pos = increment d.pos := by
  unfold splitBlockD
  match c.p with
  | none => rfl
  | some (s, k) =>
    by_cases h : isEndOfBlockP (blockAt d.blocks c.b) (some (s, k)) = true
    · simp [h]
    · have h2 : isEndOfBlockP (blockAt d.blocks c.b) (some (s, k)) = false := by
        simpa using h
      simp only [h2, Bool.false_eq_true, if_false]

theorem insertFragmentsLoop_pos (fs : List (List Char)) (d : DocState) (c : Cursor) :
    (insertFragmentsLoop d c fs).1.pos = increment^[fs.length] d.pos := by
  induction fs generalizing d c with
  | nil => simp [insertFragmentsLoop]
  | cons f rest ih =>
    unfold insertFragmentsLoop
    simp only
    rw [ih]
    rw [List.length_cons, Function.iterate_succ_apply, splitBlockD_pos]

/-- C2 counterexample: inserting the two-fragment text "a\nb" into a document
whose token is 1 leaves the token at 3 — the call's own bump plus the internal
`splitBlock`'s bump — not at `increment 1 = 2` as a single bump per call would
give. -/
theorem C2_counterexample :
    (insertTextD ⟨[Block.emptyBlock], 1⟩ ⟨0, none⟩ ['a', '\n', 'b']).1.pos = 3 ∧
    increment 1 = 2 ∧
    (insertTextD ⟨[Block.emptyBlock], 1⟩ ⟨0, none⟩ ['a', '\n', 'b']).1.pos ≠ increment 1 := by
  refine ⟨by decide, by decide, by decide⟩

/-- C2 (amended): `insertText` increments the snapshot token once for the call
itself plus once per internal `splitBlock` — `N` increments in total for `N`
line-break-separated fragments, not exactly one. -/
theorem C2_amended_token_per_fragment (d : DocState) (c : Cursor) (text : List Char) :
    (insertTextD d c text).1.pos = increment^[(splitFragments text).length] d.pos := by
  unfold insertTextD insertTextAtCursorD
  simp only
  rw [insertFragmentsLoop_pos]
  have hne := splitFragments_ne_nil text
  match hsf : splitFragments text with
  | [] => exact absurd hsf hne
  | f :: fs =>
    simp only [List.tail_cons, List.length_cons]
    rw [Function.iterate_succ_apply]

theorem splitFragments_length (text : List Char) :
    (splitFragments text).length = 1 + (text.filter (fun c => c == '\n')).length := by
  induction text with
  | nil => simp [splitFragments]
  | cons ch rest ih =>
    unfold splitFragments
    by_cases h1 : ch == '\r'
    · have hcr : (ch == '\n') = false := by
        have := eq_of_beq h1
        subst this
        decide
      simp only [h1, if_true, List.filter_cons, hcr, Bool.false_eq_true, if_false]
      exact ih
    · by_cases h2 : ch == '\n'
      · simp only [h1, Bool.false_eq_true, if_false, h2, if_true, List.filter_cons]
        simp [h2, ih]
        omega
      · simp only [h1, h2, Bool.false_eq_true, if_false, List.filter_cons]
        cases hsf : splitFragments rest with
        | nil => exact absurd hsf (splitFragments_ne_nil rest)
        | cons f fs =>
          rw [hsf] at ih
          simp [h2, ih]
          simp at ih
          omega

theorem splitFragments_flatten (text : List Char) :
    (splitFragments text).flatten = text.filter (fun c => c != '\n' && c != '\r') := by
  induction text with
  | nil => simp [splitFragments]
  | cons ch rest ih =>
    unfold splitFragments
    by_cases h1 : ch == '\r'
    · have hch : ch = '\r' := eq_of_beq h1
      subst hch
      simp only [if_pos rfl, List.filter_cons]
      simp
      exact ih
    · by_cases h2 : ch == '\n'
      · have hch : ch = '\n' := eq_of_beq h2
        subst hch
        simp only [h1]
        simp [List.filter_cons]
        exact ih
      · simp only [h1, h2, Bool.false_eq_true, if_false, List.filter_cons]
        cases hsf : splitFragments rest with
        | nil => exact absurd hsf (splitFragments_ne_nil rest)
        | cons f fs =>
          rw [hsf] at ih
          have hne1 : ch ≠ '\n' := by simpa using h2
          have hne2 : ch ≠ '\r' := by simpa using h1
          simp only [List.flatten_cons] at ih ⊢
          simp [hne1, hne2, ih]

/-- C5 counterexample: a bare CR is not "exactly one break" — inserting
"a\rb" into an empty document block yields a single block "ab" (the CR is
discarded without starting a new fragment), not the two blocks a CR-as-break
reading requires. -/
theorem C5_counterexample :
    (insertTextD ⟨[Block.emptyBlock], 1⟩ ⟨0, none⟩ ['a', '\r', 'b']).1.blocks
      = [⟨[⟨"", ['a', 'b']⟩]⟩] ∧
    ((insertTextD ⟨[Block.emptyBlock], 1⟩ ⟨0, none⟩ ['a', '\r', 'b']).1.blocks).length ≠ 2 := by
  refine ⟨by decide, by decide⟩

/-- C5 (amended): `insertText` splits on LF alone — LF and CRLF are each one
break, every CR is discarded and a bare CR produces no break — and inserts
fragment 0 at the cursor and each later fragment in a freshly split block:
fragment count is 1 + the number of LFs, the fragments' concatenation is the
text minus CR/LF, and the "ab\ncd" (and CRLF variant) scenario yields blocks
"ab" and "cd" with the returned cursor at the end of the second block. -/
theorem C5_amended_fragment_insertion :
    (∀ text : List Char,
      (splitFragments text).length = 1 + (text.filter (fun c => c == '\n')).length) ∧
    (∀ text : List Char,
      (splitFragments text).flatten = text.filter (fun c => c != '\n' && c != '\r')) ∧
    (insertTextD ⟨[Block.emptyBlock], 1⟩ ⟨0, none⟩ ['a', 'b', '\n', 'c', 'd']
      = (⟨[⟨[⟨"", ['a', 'b']⟩]⟩, ⟨[⟨"", ['c', 'd']⟩]⟩], 3⟩, ⟨1, some (0, 1)⟩)) ∧
    isEndOfBlockP ⟨[⟨"", ['c', 'd']⟩]⟩ (some (0, 1)) = true ∧
    (insertTextD ⟨[Block.emptyBlock], 1⟩ ⟨0, none⟩ ['a', 'b', '\r', '\n', 'c', 'd']
      = (⟨[⟨[⟨"", ['a', 'b']⟩]⟩, ⟨[⟨"", ['c', 'd']⟩]⟩], 3⟩, ⟨1, some (0, 1)⟩)) := by
  exact ⟨splitFragments_length, splitFragments_flatten, by decide, by decide, by decide⟩

/-- C6: the code has a slip whose intent the comment `//else if (currentElement
=== container)` documents — the post-loop write goes through `currentCache`,
which still points at the element processed last *inside* the loop, i.e. the
target's predecessor.  On document [1, 2, 3] with a fresh cache, `getIndexOf 3`
answers 2 but poisons block 2's cache entry with index 2 under the current
token; the follow-up `getIndexOf 2` then answers 2 where the naive scan (and
the spec) says 1. -/
theorem C6_stale_predecessor_index :
    (getIndexOf [1, 2, 3] initialDocumentCache 3).1 = 2 ∧
    (getIndexOf [1, 2, 3] (getIndexOf [1, 2, 3] initialDocumentCache 3).2 2).1 = 2 ∧
    naiveIndexOf [1, 2, 3] 2 = some 1 := by
  refine ⟨by decide, by decide, by decide⟩

theorem blockAt_eq_getElem {bs : List Block} {i : Nat} (h : i < bs.length) :
    blockAt bs i = bs[i] := by
  unfold blockAt
  exact List.getD_eq_getElem bs _ h

theorem appendToBlockB_emptyBlock (content : List Run) :
    appendToBlockB Block.emptyBlock content = ⟨content⟩ := rfl

theorem insert_adjacent_eq {bs : List Block} {n : Nat} (h : n < bs.length)
    (he : blockAt bs n = Block.emptyBlock) :
    insertBlockAtIdx bs n Block.emptyBlock = insertBlockAtIdx bs (n + 1) Block.emptyBlock := by
  unfold insertBlockAtIdx
  have h1 : bs.take (n + 1) = bs.take n ++ [bs[n]] := by
    rw [List.take_succ, List.getElem?_eq_getElem h]
    simp
  have h2 : bs.drop n = bs[n] :: bs.drop (n + 1) := List.drop_eq_getElem_cons h
  have h3 : bs[n] = Block.emptyBlock := by
    rw [← he, blockAt_eq_getElem h]
  rw [h1, h2, h3]
  simp

theorem blockAt_insert_self {bs : List Block} {n : Nat} (h : n ≤ bs.length) (nb : Block) :
    blockAt (insertBlockAtIdx bs n nb) n = nb := by
  unfold blockAt insertBlockAtIdx
  have hlen : (bs.take n).length = n := by simp; omega
  rw [List.getD_append_right _ _ _ _ (le_of_eq hlen)]
  rw [hlen]
  simp

theorem end_of_none_is_empty {bl : Block} (_hv : ValidBlock bl)
    (he : isEndOfBlockP bl none = true) : bl.isEmpty = true := by
  simp only [isEndOfBlockP, isEndOfSpanP, spanIdxP, Bool.and_eq_true, beq_iff_eq] at he
  obtain ⟨h0, h1⟩ := he
  have hlen : bl.runs.length = 1 := by omega
  match hr : bl.runs with
  | [] => rw [hr] at hlen; simp at hlen
  | r :: rest =>
    simp only [Block.isEmpty, hr]
    rw [Block.lenAt, hr] at h0
    simpa [List.isEmpty_iff, List.length_eq_zero] using h0

/-- C3: `splitBlock` on a live, well-formed block: at the beginning of the
block, a blank block is inserted immediately before and the cursor moves to
the end of that blank block; at the end of the block, a blank block is
inserted immediately after and the cursor is unchanged; at an interior cursor
the suffix from the cursor to the end of the block (a span divided at the
character offset when needed) moves to a new following block, the current
block retains the prefix and the cursor stays on its character - now the end
of the prefix block.  The hypothesis `hE` records that every empty block this
editor ever produces is the blank `createNewBlock` block, which makes the
beginning/end case descriptions agree on an empty block (where the code takes
the beginning branch).  The "abcd" scenario is the final conjunct. -/
theorem C3_splitBlock_cases (d : DocState) (c : Cursor)
    (hb : c.b < d.blocks.length)
    (hp : ValidPos (blockAt d.blocks c.b) c.p)
    (hv : ValidBlock (blockAt d.blocks c.b))
    (hE : (blockAt d.blocks c.b).isEmpty = true → blockAt d.blocks c.b = Block.emptyBlock) :
    (c.p = none →
      (splitBlockD d c).1.blocks = insertBlockAtIdx d.blocks c.b Block.emptyBlock ∧
      (splitBlockD d c).2 = ⟨c.b, none⟩ ∧
      blockAt (splitBlockD d c).1.blocks c.b = Block.emptyBlock ∧
      moveToEndOfP Block.emptyBlock = none) ∧
    (isEndOfBlockP (blockAt d.blocks c.b) c.p = true →
      (splitBlockD d c).1.blocks = insertBlockAtIdx d.blocks (c.b + 1) Block.emptyBlock ∧
      (splitBlockD d c).2 = c) ∧
    (c.p ≠ none → isEndOfBlockP (blockAt d.blocks c.b) c.p = false →
      ∃ b1 b2 : Block,
        (splitBlockD d c).1.blocks
          = insertBlockAtIdx (d.blocks.set c.b b1) (c.b + 1) b2 ∧
        b1.text = (blockAt d.blocks c.b).text.take (posOf (blockAt d.blocks c.b) c.p) ∧
        b2.text = (blockAt d.blocks c.b).text.drop (posOf (blockAt d.blocks c.b) c.p) ∧
        (splitBlockD d c).2 = c ∧
        isEndOfBlockP b1 c.p = true) ∧
    ((splitBlockD ⟨[⟨[⟨"", ['a', 'b', 'c', 'd']⟩]⟩], 1⟩ ⟨0, some (0, 1)⟩).1.blocks
        = [⟨[⟨"", ['a', 'b']⟩]⟩, ⟨[⟨"", ['c', 'd']⟩]⟩] ∧
      (splitBlockD ⟨[⟨[⟨"", ['a', 'b', 'c', 'd']⟩]⟩], 1⟩ ⟨0, some (0, 1)⟩).2 = ⟨0, some (0, 1)⟩ ∧
      isEndOfBlockP ⟨[⟨"", ['a', 'b']⟩]⟩ (some (0, 1)) = true) := by
  refine ⟨?_, ?_, ?_, by decide, by decide, by decide⟩
  · intro hnone
    unfold splitBlockD
    rw [hnone]
    exact ⟨rfl, rfl, blockAt_insert_self (by omega) _, rfl⟩
  · intro hend
    match hcp : c.p with
    | none =>
      have hemp := end_of_none_is_empty hv (hcp ▸ hend)
      have hEB := hE hemp
      obtain ⟨cb, cp⟩ := c
      simp only at hcp
      subst hcp
      simp only at hemp hEB hb
      unfold splitBlockD
      exact ⟨insert_adjacent_eq hb hEB, rfl⟩
    | some (s, k) =>
      unfold splitBlockD
      rw [hcp]
      rw [hcp] at hend
      simp only [hend, if_true]
      exact ⟨by trivial, by trivial⟩
  · intro hne hend
    match hcp : c.p with
    | none => exact absurd hcp hne
    | some (s, k) =>
      rw [hcp] at hp hend
      obtain ⟨hs, hk⟩ := hp
      unfold splitBlockD
      rw [hcp]
      simp only [hend, Bool.false_eq_true, if_false]
      set bl := blockAt d.blocks c.b with hbl
      have hrs : bl.runs.getD s ⟨"", []⟩ = bl.runs[s] := runs_getD_eq_getElem hs
      have hdecomp : bl.runs = bl.runs.take s ++ bl.runs[s] :: bl.runs.drop (s + 1) := by
        conv_lhs => rw [← List.take_append_drop s bl.runs]
        rw [List.drop_eq_getElem_cons hs]
      by_cases hsp : k + 1 = bl.lenAt s
      · have hspb : (k + 1 == bl.lenAt s) = true := by simpa using hsp
        simp only [hspb, if_true]
        refine ⟨⟨bl.runs.take (s + 1)⟩, appendToBlockB Block.emptyBlock (bl.runs.drop (s + 1)),
          rfl, ?_, ?_, by trivial, ?_⟩
        · rw [text_eq, text_eq]
          simp only
          have hsplit : textOfRuns bl.runs
              = textOfRuns (bl.runs.take (s + 1)) ++ textOfRuns (bl.runs.drop (s + 1)) := by
            rw [← textOfRuns_append, List.take_append_drop]
          rw [hsplit, posOf_some]
          have hlen1 : (textOfRuns (bl.runs.take (s + 1))).length
              = sumLens (bl.runs.take (s + 1)) := length_textOfRuns _
          have hlen2 := sumLens_take_succ hs
          rw [lenAt_eq_of_lt hs] at hsp
          have : sumLens (bl.runs.take s) + k + 1 = (textOfRuns (bl.runs.take (s + 1))).length := by
            omega
          rw [this, List.take_left]
        · rw [appendToBlockB_emptyBlock, text_eq, text_eq]
          simp only
          have hsplit : textOfRuns bl.runs
              = textOfRuns (bl.runs.take (s + 1)) ++ textOfRuns (bl.runs.drop (s + 1)) := by
            rw [← textOfRuns_append, List.take_append_drop]
          rw [hsplit, posOf_some]
          have hlen1 : (textOfRuns (bl.runs.take (s + 1))).length
              = sumLens (bl.runs.take (s + 1)) := length_textOfRuns _
          have hlen2 := sumLens_take_succ hs
          rw [lenAt_eq_of_lt hs] at hsp
          have : sumLens (bl.runs.take s) + k + 1 = (textOfRuns (bl.runs.take (s + 1))).length := by
            omega
          rw [this, List.drop_left]
        · simp only [isEndOfBlockP, isEndOfSpanP, spanIdxP, Bool.and_eq_true, beq_iff_eq]
          constructor
          · rw [Block.lenAt]
            simp only
            have hlt : s < (bl.runs.take (s + 1)).length := by
              simp
              omega
            rw [List.getD_eq_getElem _ _ hlt]
            rw [List.getElem_take bl.runs]
            rw [lenAt_eq_of_lt hs] at hsp
            exact hsp
          · simp
            omega
      · have hspb : (k + 1 == bl.lenAt s) = false := by simpa using hsp
        simp only [hspb, Bool.false_eq_true, if_false]
        have hklt : k + 1 < bl.runs[s].chars.length := by
          rw [lenAt_eq_of_lt hs] at hk hsp
          omega
        refine ⟨⟨bl.runs.take s ++ [⟨bl.runs[s].style, bl.runs[s].chars.take (k + 1)⟩]⟩,
          appendToBlockB Block.emptyBlock
            (Run.mk bl.runs[s].style (bl.runs[s].chars.drop (k + 1)) :: bl.runs.drop (s + 1)),
          by rw [hrs], ?_, ?_, by trivial, ?_⟩
        · rw [text_eq, text_eq]
          simp only
          conv_rhs => rw [hdecomp]
          rw [textOfRuns_append, textOfRuns_append]
          have h1 : textOfRuns [Run.mk bl.runs[s].style (bl.runs[s].chars.take (k + 1))]
              = bl.runs[s].chars.take (k + 1) := by
            simp [textOfRuns]
          have h2 : textOfRuns (bl.runs[s] :: bl.runs.drop (s + 1))
              = bl.runs[s].chars ++ textOfRuns (bl.runs.drop (s + 1)) := by
            unfold textOfRuns
            rw [List.map_cons, List.flatten_cons]
          rw [h1, h2, posOf_some]
          have hlen1 : (textOfRuns (bl.runs.take s)).length = sumLens (bl.runs.take s) :=
            length_textOfRuns _
          have hshape : sumLens (bl.runs.take s) + k + 1
              = (textOfRuns (bl.runs.take s)).length + (k + 1) := by omega
          rw [hshape, List.take_append]
          rw [List.take_append_of_le_length (by omega)]
        · rw [appendToBlockB_emptyBlock, text_eq, text_eq]
          simp only
          conv_rhs => rw [hdecomp]
          rw [textOfRuns_append]
          have h2 : textOfRuns (bl.runs[s] :: bl.runs.drop (s + 1))
              = bl.runs[s].chars ++ textOfRuns (bl.runs.drop (s + 1)) := by
            unfold textOfRuns
            rw [List.map_cons, List.flatten_cons]
          have h3 : textOfRuns (Run.mk bl.runs[s].style (bl.runs[s].chars.drop (k + 1))
                :: bl.runs.drop (s + 1))
              = bl.runs[s].chars.drop (k + 1) ++ textOfRuns (bl.runs.drop (s + 1)) := by
            unfold textOfRuns
            rw [List.map_cons, List.flatten_cons]
          rw [h2, h3, posOf_some]
          have hlen1 : (textOfRuns (bl.runs.take s)).length = sumLens (bl.runs.take s) :=
            length_textOfRuns _
          have hshape : sumLens (bl.runs.take s) + k + 1
              = (textOfRuns (bl.runs.take s)).length + (k + 1) := by omega
          rw [hshape, List.drop_append]
          rw [List.drop_append_of_le_length (by omega)]
        · simp only [isEndOfBlockP, isEndOfSpanP, spanIdxP, Bool.and_eq_true, beq_iff_eq]
          have hlt : (bl.runs.take s).length = s := by
            simp
            omega
          constructor
          · rw [Block.lenAt]
            simp only
            rw [List.getD_append_right _ _ _ _ (le_of_eq hlt)]
            rw [hlt, Nat.sub_self]
            simp
            omega
          · simp only [List.length_append, List.length_cons, List.length_nil, hlt]

/-- C3 witness: the "abcd" interior split discharged through the theorem. -/
theorem C3_splitBlock_cases_witness :
    ((0 : Nat) < 1 ∧ ValidBlock ⟨[⟨"", ['a', 'b', 'c', 'd']⟩]⟩) ∧
    (splitBlockD ⟨[⟨[⟨"", ['a', 'b', 'c', 'd']⟩]⟩], 1⟩ ⟨0, some (0, 1)⟩).1.blocks
      = [⟨[⟨"", ['a', 'b']⟩]⟩, ⟨[⟨"", ['c', 'd']⟩]⟩] := by
  refine ⟨⟨by decide, by decide⟩, ?_⟩
  exact (C3_splitBlock_cases ⟨[⟨[⟨"", ['a', 'b', 'c', 'd']⟩]⟩], 1⟩ ⟨0, some (0, 1)⟩
    (by decide) (by decide) (by decide) (by decide)).2.2.2.1

theorem valid_all_nonempty {a : Block} (hv : ValidBlock a) (he : a.isEmpty = false) :
    ∀ r ∈ a.runs, r.chars ≠ [] := by
  intro r hr hc
  have hlen := hv.2.1 r hr hc
  have hruns : a.runs = [r] := by
    match hx : a.runs with
    | [] => rw [hx] at hr; simp at hr
    | x :: rest =>
      rw [hx] at hlen hr
      simp at hlen
      subst hlen
      simp at hr
      rw [hr]
  unfold Block.isEmpty at he
  rw [hruns] at he
  simp [hc] at he

theorem appendToBlockB_cases {a : Block} (he : a.isEmpty = false) (hne : a.runs ≠ [])
    {content : List Run} {f : Run} {rest : List Run} (hcontent : content = f :: rest) :
    ((a.runs.getLast hne).style = f.style ∧
      appendToBlockB a content
        = ⟨a.runs.dropLast
            ++ Run.mk (a.runs.getLast hne).style ((a.runs.getLast hne).chars ++ f.chars)
            :: rest⟩) ∨
    ((a.runs.getLast hne).style ≠ f.style ∧
      appendToBlockB a content = ⟨a.runs ++ content⟩) := by
  unfold appendToBlockB
  rw [he]
  simp only [Bool.false_and, Bool.false_eq_true, if_false]
  rw [hcontent, List.getLast?_eq_getLast a.runs hne]
  by_cases hst : (a.runs.getLast hne).style = f.style
  · left
    refine ⟨hst, ?_⟩
    have hb : ((a.runs.getLast hne).style == f.style) = true := by simpa using hst
    simp [hb]
  · right
    refine ⟨hst, ?_⟩
    have hb : ((a.runs.getLast hne).style == f.style) = false := by simpa using hst
    simp [hb]

theorem appendToBlockB_empty_case {a : Block} (hv : ValidBlock a) (he : a.isEmpty = true)
    (content : List Run) : appendToBlockB a content = ⟨content⟩ := by
  obtain ⟨r, hruns, _⟩ := valid_isEmpty_true hv he
  unfold appendToBlockB
  rw [he, hruns]
  simp

theorem appendToBlockB_text {a : Block} (he : a.isEmpty = false) (hne : a.runs ≠ [])
    {content : List Run} {f : Run} {rest : List Run} (hcontent : content = f :: rest) :
    textOfRuns (appendToBlockB a content).runs = textOfRuns a.runs ++ textOfRuns content := by
  rcases appendToBlockB_cases he hne hcontent with ⟨hst, heq⟩ | ⟨hst, heq⟩
  · rw [heq]
    simp only
    conv_rhs => rw [← List.dropLast_append_getLast hne]
    rw [hcontent]
    rw [textOfRuns_append, textOfRuns_append]
    unfold textOfRuns
    simp

  · rw [heq]
    simp only
    rw [textOfRuns_append]

theorem appendToBlockB_valid {a : Block} (hv : ValidBlock a) (he : a.isEmpty = false)
    {content : List Run} (hc : ValidContent content) :
    ValidBlock (appendToBlockB a content) := by
  have hne := hv.1
  obtain ⟨hcne, hcnonempty, hcchain⟩ := hc
  obtain ⟨f, rest, rfl⟩ := List.exists_cons_of_ne_nil hcne
  have hanonempty := valid_all_nonempty hv he
  have hchain := hv.2.2
  rcases @appendToBlockB_cases a he hne (f :: rest) f rest rfl with ⟨hst, heq⟩ | ⟨hst, heq⟩
  · rw [heq]
    have hdecomp : a.runs = a.runs.dropLast ++ [a.runs.getLast hne] :=
      (List.dropLast_append_getLast hne).symm
    have hchain2 : StylesOk (a.runs.dropLast ++ [a.runs.getLast hne]) := by
      rw [← hdecomp]; exact hchain
    unfold StylesOk at hchain2
    rw [List.chain'_append] at hchain2
    have hcchain2 := hcchain
    unfold StylesOk at hcchain2
    rw [List.chain'_cons'] at hcchain2
    refine ⟨by simp, ?_, ?_⟩
    · intro r hr hrc
      exfalso
      rcases List.mem_append.mp hr with hr1 | hr2
      · exact hanonempty r (List.mem_of_mem_dropLast hr1) hrc
      · rcases List.mem_cons.mp hr2 with hr3 | hr4
        · have hnil : (a.runs.getLast hne).chars ++ f.chars = [] := by
            rw [hr3] at hrc; exact hrc
          have h5 := hanonempty (a.runs.getLast hne) (List.getLast_mem hne)
          simp at hnil
          exact h5 hnil.1
        · exact hcnonempty r (List.mem_cons_of_mem f hr4) hrc
    · unfold StylesOk
      rw [List.chain'_append]
      refine ⟨hchain2.1, ?_, ?_⟩
      · rw [List.chain'_cons']
        refine ⟨?_, hcchain2.2⟩
        intro y hy
        have hys := hcchain2.1 y hy
        simp only
        rw [hst]
        exact hys
      · intro x hx y hy
        simp only [List.head?_cons, Option.mem_def, Option.some.injEq] at hy
        have hseam := hchain2.2.2 x (by simpa using hx) (a.runs.getLast hne) (by simp)
        rw [← hy]
        simpa using hseam
  · rw [heq]
    refine ⟨by simp [hne], ?_, ?_⟩
    · intro r hr hrc
      exfalso
      rcases List.mem_append.mp hr with hr1 | hr2
      · exact hanonempty r hr1 hrc
      · exact hcnonempty r hr2 hrc
    · unfold StylesOk
      rw [List.chain'_append]
      refine ⟨hchain, hcchain, ?_⟩
      intro x hx y hy
      rw [List.getLast?_eq_getLast a.runs hne] at hx
      simp only [Option.mem_def, Option.some.injEq] at hx
      simp only [List.head?_cons, Option.mem_def, Option.some.injEq] at hy
      rw [← hx, ← hy]
      exact hst

theorem appendToBlockB_pos {a : Block} (hv : ValidBlock a) (he : a.isEmpty = false)
    {content : List Run} (hc : ValidContent content) {s k : Nat}
    (hs : s < a.runs.length) (hk : k < a.lenAt s) :
    s < (appendToBlockB a content).runs.length ∧ k < (appendToBlockB a content).lenAt s ∧
    sumLens ((appendToBlockB a content).runs.take s) = sumLens (a.runs.take s) := by
  have hne := hv.1
  obtain ⟨f, rest, rfl⟩ := List.exists_cons_of_ne_nil hc.1
  rcases @appendToBlockB_cases a he hne (f :: rest) f rest rfl with ⟨hst, heq⟩ | ⟨hst, heq⟩
  · rw [heq]
    have hdlen : a.runs.dropLast.length = a.runs.length - 1 := by simp
    have hslen : s ≤ a.runs.length - 1 := by omega
    have htake : (a.runs.dropLast
          ++ Run.mk (a.runs.getLast hne).style ((a.runs.getLast hne).chars ++ f.chars)
          :: rest).take s = a.runs.take s := by
      rw [List.take_append_of_le_length (by omega)]
      rw [List.dropLast_eq_take, List.take_take, Nat.min_eq_left hslen]
    refine ⟨by simp; omega, ?_, by rw [htake]⟩
    by_cases hlast : s = a.runs.length - 1
    · unfold Block.lenAt
      simp only
      rw [List.getD_append_right _ _ _ _
        (show a.runs.dropLast.length ≤ s by omega)]
      rw [hdlen, hlast, Nat.sub_self]
      simp only [List.getD_cons_zero]
      have hgl : a.runs.getLast hne = a.runs[s] := by
        rw [List.getLast_eq_getElem]
        have hswap : a.runs.length - 1 = s := hlast.symm
        simp [hswap]
      rw [lenAt_eq_of_lt hs] at hk
      rw [hgl]
      simp
      omega
    · unfold Block.lenAt
      simp only
      rw [List.getD_append _ _ _ s (show s < a.runs.dropLast.length by omega)]
      rw [lenAt_eq_of_lt hs] at hk
      have hdl : a.runs.dropLast.getD s ⟨"", []⟩ = a.runs[s] := by
        have hlt : s < a.runs.dropLast.length := by omega
        rw [List.getD_eq_getElem _ _ hlt]
        rw [List.getElem_dropLast]
      rw [hdl]
      exact hk
  · rw [heq]
    have htake : (a.runs ++ f :: rest).take s = a.runs.take s :=
      List.take_append_of_le_length (by omega)
    refine ⟨by simp; omega, ?_, by rw [htake]⟩
    unfold Block.lenAt
    simp only
    rw [List.getD_append _ _ _ s hs]
    rw [lenAt_eq_of_lt hs] at hk
    rw [List.getD_eq_getElem _ _ hs]
    exact hk

theorem getD_drop_add (l : List Block) (n m : Nat) (d : Block) :
    (l.drop n).getD m d = l.getD (n + m) d := by
  rw [List.getD_eq_getElem?_getD, List.getD_eq_getElem?_getD, List.getElem?_drop]

theorem length_removeBlockAtIdx {bs : List Block} {j : Nat} (hj : j < bs.length) :
    (removeBlockAtIdx bs j).length = bs.length - 1 := by
  unfold removeBlockAtIdx
  simp
  omega

theorem blockAt_remove_of_ne {bs : List Block} {i j : Nat} (hi : i < bs.length)
    (hj : j < bs.length) (hij : i ≠ j) :
    blockAt (removeBlockAtIdx bs j) (if j < i then i - 1 else i) = blockAt bs i := by
  unfold blockAt removeBlockAtIdx
  have hlen : (bs.take j).length = j := by simp; omega
  by_cases h : j < i
  · rw [if_pos h]
    rw [List.getD_append_right _ _ _ _ (show (bs.take j).length ≤ i - 1 by omega)]
    rw [getD_drop_add, hlen]
    have hidx : j + 1 + (i - 1 - j) = i := by omega
    rw [hidx]
  · rw [if_neg h]
    rw [List.getD_append _ _ _ i (show i < (bs.take j).length by omega)]
    rw [List.getD_eq_getElem _ _ (show i < (bs.take j).length by omega)]
    rw [List.getElem_take]
    rw [List.getD_eq_getElem _ _ hi]

/-- C4: `mergeBlocks` on two live well-formed blocks: an empty `blockToMerge`
is simply removed, `mergeInto` is untouched and the returned cursor is its
end; a non-empty `blockToMerge` is extracted and appended, and the returned
cursor is the beginning of an initially-empty `mergeInto`, else the exact old
boundary between the two contents (character offset = old length of
`mergeInto`), surviving run coalescing thanks to the step-back / append /
step-forward computation.  The final conjunct is the
`mergeBlocks(A="hello", B="")` scenario. -/
theorem C4_mergeBlocks_seam (d : DocState) (i j : Nat)
    (hi : i < d.blocks.length) (hj : j < d.blocks.length) (hij : i ≠ j)
    (hA : ValidBlock (blockAt d.blocks i)) (hB : ValidBlock (blockAt d.blocks j)) :
    ((blockAt d.blocks j).isEmpty = true →
      (mergeBlocksD d i j).1.blocks = removeBlockAtIdx d.blocks j ∧
      blockAt (mergeBlocksD d i j).1.blocks (if j < i then i - 1 else i)
        = blockAt d.blocks i ∧
      (mergeBlocksD d i j).2
        = ⟨if j < i then i - 1 else i, moveToEndOfP (blockAt d.blocks i)⟩ ∧
      posOf (blockAt d.blocks i) (moveToEndOfP (blockAt d.blocks i))
        = (blockAt d.blocks i).textLen) ∧
    ((blockAt d.blocks j).isEmpty = false → (blockAt d.blocks i).isEmpty = true →
      (mergeBlocksD d i j).1.blocks
        = (removeBlockAtIdx d.blocks j).set (if j < i then i - 1 else i)
            ⟨(blockAt d.blocks j).runs⟩ ∧
      (mergeBlocksD d i j).2 = ⟨if j < i then i - 1 else i, none⟩ ∧
      posOf ⟨(blockAt d.blocks j).runs⟩ none = 0) ∧
    ((blockAt d.blocks j).isEmpty = false → (blockAt d.blocks i).isEmpty = false →
      ∃ m : Block,
        (mergeBlocksD d i j).1.blocks
          = (removeBlockAtIdx d.blocks j).set (if j < i then i - 1 else i) m ∧
        m.text = (blockAt d.blocks i).text ++ (blockAt d.blocks j).text ∧
        (mergeBlocksD d i j).2.b = (if j < i then i - 1 else i) ∧
        ValidPos m (mergeBlocksD d i j).2.p ∧
        posOf m (mergeBlocksD d i j).2.p = (blockAt d.blocks i).textLen) ∧
    (mergeBlocksD ⟨[⟨[⟨"", ['h', 'e', 'l', 'l', 'o']⟩]⟩, Block.emptyBlock], 1⟩ 0 1
        = (⟨[⟨[⟨"", ['h', 'e', 'l', 'l', 'o']⟩]⟩], 2⟩, ⟨0, some (0, 4)⟩) ∧
      posOf ⟨[⟨"", ['h', 'e', 'l', 'l', 'o']⟩]⟩ (some (0, 4))
        = Block.textLen ⟨[⟨"", ['h', 'e', 'l', 'l', 'o']⟩]⟩) := by
  refine ⟨?_, ?_, ?_, by decide, by decide⟩
  · intro hBe
    simp only [mergeBlocksD, hBe, if_true]
    exact ⟨by trivial, blockAt_remove_of_ne hi hj hij, by trivial, (moveToEndOfP_spec hA).2⟩
  · intro hBe hAe
    simp only [mergeBlocksD, hBe, hAe, Bool.false_eq_true, if_false, if_true]
    refine ⟨?_, by trivial, by trivial⟩
    rw [appendToBlockB_empty_case hA hAe]
  · intro hBe hAe
    simp only [mergeBlocksD, hBe, hAe, Bool.false_eq_true, if_false]
    set a := blockAt d.blocks i with ha
    set b := blockAt d.blocks j with hbdef
    set i2 := (if j < i then i - 1 else i) with hi2
    have hbc : ValidContent b.runs :=
      ⟨hB.1, fun r hr => valid_all_nonempty hB hBe r hr, hB.2.2⟩
    set m := appendToBlockB a b.runs with hm
    obtain ⟨hp0v, hp0pos⟩ := moveToEndOfP_spec hA
    have hp0some : ∃ s0 k0, moveToEndOfP a = some (s0, k0) := by
      match hp0 : moveToEndOfP a with
      | none =>
        exfalso
        rw [hp0] at hp0pos
        rw [posOf_none] at hp0pos
        have := valid_isEmpty_false hA hAe
        omega
      | some (s0, k0) => exact ⟨s0, k0, rfl⟩
    obtain ⟨s0, k0, hp0⟩ := hp0some
    rw [hp0] at hp0v hp0pos
    obtain ⟨q, hq, hqv, hqpos⟩ := moveBackwardInBlock_spec hA hp0v
    rw [hp0, hq]
    simp only [Option.getD_some]
    have hqposval : posOf a q + 1 = a.textLen := by rw [hqpos, hp0pos]
    have hmv : ValidBlock m := appendToBlockB_valid hA hAe hbc
    have hqmv : ValidPos m q ∧ posOf m q = posOf a q := by
      match hqshape : q with
      | none => exact ⟨trivial, rfl⟩
      | some (sq, kq) =>
        obtain ⟨hsq, hkq⟩ := hqv
        obtain ⟨h1, h2, h3⟩ := appendToBlockB_pos hA hAe hbc hsq hkq
        refine ⟨⟨h1, h2⟩, ?_⟩
        rw [posOf_some, posOf_some, h3]
    have hmtextLen : m.textLen = a.textLen + sumLens b.runs := by
      obtain ⟨f, rest, hfr⟩ := List.exists_cons_of_ne_nil hB.1
      have htxt := appendToBlockB_text hAe hA.1 hfr
      have hlen := congrArg List.length htxt
      rw [List.length_append, length_textOfRuns, length_textOfRuns,
        length_textOfRuns] at hlen
      rw [textLen_eq, textLen_eq]
      exact hlen
    have hbpos : 0 < sumLens b.runs := by
      have := valid_isEmpty_false hB hBe
      rw [textLen_eq] at this
      exact this
    have hmend : isEndOfBlockP m q = false := by
      by_contra hcon
      have hcon2 : isEndOfBlockP m q = true := by simpa using hcon
      have := (isEndOfBlockP_iff_posOf hmv hqmv.1).mp hcon2
      rw [hqmv.2] at this
      omega
    obtain ⟨s2, k2, hfwd, hval2, hpos2⟩ := moveForwardInBlock_spec hmv hqmv.1 hmend
    have hblockAt : blockAt ((removeBlockAtIdx d.blocks j).set i2 m) i2 = m := by
      apply blockAt_set_self
      rw [length_removeBlockAtIdx hj, hi2]
      by_cases hji : j < i
      · rw [if_pos hji]
        omega
      · rw [if_neg hji]
        omega
    have hcurs : moveForwardD ((removeBlockAtIdx d.blocks j).set i2 m) ⟨i2, q⟩
        = (true, ⟨i2, some (s2, k2)⟩) := by
      unfold moveForwardD
      simp only
      rw [hblockAt, hfwd]
    rw [hcurs]
    refine ⟨m, rfl, ?_, rfl, hval2, ?_⟩
    · rw [text_eq, text_eq, text_eq, hm]
      obtain ⟨f, rest, hfr⟩ := List.exists_cons_of_ne_nil hB.1
      exact appendToBlockB_text hAe hA.1 hfr
    · rw [hpos2, hqmv.2]
      omega

/-- C4 witness: the seam case at A = "ab", B = "cd" discharged through the
theorem. -/
theorem C4_mergeBlocks_seam_witness :
    ((0 : Nat) < 2 ∧ (1 : Nat) < 2 ∧ (0 : Nat) ≠ 1) ∧
    ∃ m : Block,
      (mergeBlocksD ⟨[⟨[⟨"", ['a', 'b']⟩]⟩, ⟨[⟨"", ['c', 'd']⟩]⟩], 1⟩ 0 1).1.blocks
        = (removeBlockAtIdx [⟨[⟨"", ['a', 'b']⟩]⟩, ⟨[⟨"", ['c', 'd']⟩]⟩] 1).set 0 m ∧
      m.text = (Block.text ⟨[⟨"", ['a', 'b']⟩]⟩) ++ (Block.text ⟨[⟨"", ['c', 'd']⟩]⟩) ∧
      (mergeBlocksD ⟨[⟨[⟨"", ['a', 'b']⟩]⟩, ⟨[⟨"", ['c', 'd']⟩]⟩], 1⟩ 0 1).2.b = 0 ∧
      ValidPos m (mergeBlocksD ⟨[⟨[⟨"", ['a', 'b']⟩]⟩, ⟨[⟨"", ['c', 'd']⟩]⟩], 1⟩ 0 1).2.p ∧
      posOf m (mergeBlocksD ⟨[⟨[⟨"", ['a', 'b']⟩]⟩, ⟨[⟨"", ['c', 'd']⟩]⟩], 1⟩ 0 1).2.p
        = Block.textLen ⟨[⟨"", ['a', 'b']⟩]⟩ := by
  refine ⟨⟨by decide, by decide, by decide⟩, ?_⟩
  have h := (C4_mergeBlocks_seam ⟨[⟨[⟨"", ['a', 'b']⟩]⟩, ⟨[⟨"", ['c', 'd']⟩]⟩], 1⟩ 0 1
    (by decide) (by decide) (by decide) (by decide) (by decide)).2.2.1
    (by decide) (by decide)
  simpa using h

theorem list_set_getElem_self {α : Type} {l : List α} {n : Nat} (h : n < l.length) :
    l.set n l[n] = l := by
  apply List.ext_getElem
  · simp
  · intro i h1 h2
    rw [List.getElem_set]
    split
    · rename_i h3
      subst h3
      rfl
    · rfl

theorem take_set_of_le {α : Type} (l : List α) (n t : Nat) (a : α) (h : t ≤ n) :
    (l.set n a).take t = l.take t := by
  apply List.ext_getElem?
  intro i
  rw [List.getElem?_take, List.getElem?_take]
  by_cases hit : i < t
  · simp only [hit, if_true]
    exact List.getElem?_set_ne (by omega)
  · simp only [hit, if_false]

theorem stylesOk_iff_map (rs : List Run) :
    StylesOk rs ↔
      List.Chain' (fun a b : String => a ≠ b) (rs.map fun r => r.style) := by
  unfold StylesOk
  exact (@List.chain'_map String Run (fun a b : String => a ≠ b) (fun r => r.style) rs).symm

theorem addAt_styles (bl : Block) (p : Pos) (frag : List Char) :
    (bl.addAt p frag).runs.map (fun r => r.style) = bl.runs.map (fun r => r.style) := by
  unfold Block.addAt
  simp only
  by_cases h : (insPoint p).1 < bl.runs.length
  · rw [List.map_set]
    rw [runs_getD_eq_getElem h]
    have hstyle : (bl.runs[(insPoint p).1].insertChars (insPoint p).2 frag).style
        = bl.runs[(insPoint p).1].style := rfl
    rw [hstyle]
    have h2 : (insPoint p).1 < (bl.runs.map (fun r => r.style)).length := by simpa using h
    have hmap : (bl.runs.map (fun r => r.style))[(insPoint p).1]
        = bl.runs[(insPoint p).1].style := by
      simp
    rw [← hmap]
    exact list_set_getElem_self (by simpa using h)
  · rw [List.set_eq_of_length_le (by omega)]

theorem addAt_valid {bl : Block} (hv : ValidBlock bl) (p : Pos) (frag : List Char) :
    ValidBlock (bl.addAt p frag) := by
  by_cases h : (insPoint p).1 < bl.runs.length
  · refine ⟨?_, ?_, ?_⟩
    · unfold Block.addAt
      simp only
      intro hnil
      have hlen0 := congrArg List.length hnil
      simp only [List.length_set, List.length_nil] at hlen0
      exact hv.1 (List.length_eq_zero.mp hlen0)
    · intro r hr hrc
      unfold Block.addAt at hr
      simp only at hr
      have hlen : (bl.addAt p frag).runs.length = bl.runs.length := by
        unfold Block.addAt
        simp
      rcases List.mem_or_eq_of_mem_set hr with hmem | heq
      · rw [hlen]
        exact hv.2.1 r hmem hrc
      · rw [hlen]
        rw [runs_getD_eq_getElem h] at heq
        unfold Run.insertChars at heq
        have hchars : r.chars = bl.runs[(insPoint p).1].chars.take (insPoint p).2
            ++ frag ++ bl.runs[(insPoint p).1].chars.drop (insPoint p).2 := by
          rw [heq]
        rw [hchars] at hrc
        simp only [List.append_eq_nil] at hrc
        have horig : bl.runs[(insPoint p).1].chars = [] := by
          have := List.take_append_drop (insPoint p).2 bl.runs[(insPoint p).1].chars
          rw [hrc.1.1, hrc.2] at this
          exact this.symm
        exact hv.2.1 bl.runs[(insPoint p).1] (bl.runs.getElem_mem h) horig
    · have hmap := addAt_styles bl p frag
      have := hv.2.2
      rw [stylesOk_iff_map] at this ⊢
      rw [hmap]
      exact this
  · have heq : bl.addAt p frag = bl := by
      unfold Block.addAt
      simp only
      rw [List.set_eq_of_length_le (by omega)]
    rw [heq]
    exact hv

theorem addAt_lenAt_same {bl : Block} {p : Pos} (frag : List Char)
    (hs : (insPoint p).1 < bl.runs.length) (hi : (insPoint p).2 ≤ bl.lenAt (insPoint p).1) :
    (bl.addAt p frag).lenAt (insPoint p).1 = bl.lenAt (insPoint p).1 + frag.length := by
  unfold Block.addAt Block.lenAt
  simp only
  rw [runs_getD_eq_getElem hs]
  rw [List.getD_eq_getElem _ _ (by simpa using hs)]
  rw [List.getElem_set_self (by simpa using hs)]
  unfold Run.insertChars
  rw [lenAt_eq_of_lt hs] at hi
  simp
  omega

theorem addAt_lenAt_other {bl : Block} {p : Pos} (frag : List Char) {t : Nat}
    (ht : t ≠ (insPoint p).1) :
    (bl.addAt p frag).lenAt t = bl.lenAt t := by
  unfold Block.addAt Block.lenAt
  simp only
  rw [List.getD_eq_getElem?_getD, List.getD_eq_getElem?_getD]
  rw [List.getElem?_set_ne (by omega)]
  rw [← List.getD_eq_getElem?_getD]

theorem addAt_take {bl : Block} {p : Pos} (frag : List Char) {t : Nat}
    (ht : t ≤ (insPoint p).1) :
    (bl.addAt p frag).runs.take t = bl.runs.take t := by
  unfold Block.addAt
  simp only
  exact take_set_of_le _ _ _ _ ht

theorem addAt_length (bl : Block) (p : Pos) (frag : List Char) :
    (bl.addAt p frag).runs.length = bl.runs.length := by
  unfold Block.addAt
  simp

theorem blockAt_mem {bs : List Block} {i : Nat} (h : i < bs.length) : blockAt bs i ∈ bs := by
  rw [blockAt_eq_getElem h]
  exact bs.getElem_mem h

theorem validBlock_blockAt {bs : List Block} (hvd : ValidBlocks bs) {i : Nat}
    (h : i < bs.length) : ValidBlock (blockAt bs i) :=
  hvd _ (blockAt_mem h)

theorem moveBackwardsD_validCursor {bs : List Block} {c : Cursor} (hvd : ValidBlocks bs)
    (hvc : ValidCursor bs c) : ValidCursor bs (moveBackwardsD bs c).2 := by
  obtain ⟨hb, hp⟩ := hvc
  match hcp : c.p with
  | none =>
    by_cases h0 : c.b = 0
    · rw [moveBackwardsD_none_first hcp h0]
      exact ⟨hb, hp⟩
    · rw [moveBackwardsD_none_cross hcp h0]
      refine ⟨by simp only; omega, ?_⟩
      simp only
      exact (moveToEndOfP_spec (validBlock_blockAt hvd (by omega))).1
  | some (s, k) =>
    rw [hcp] at hp
    obtain ⟨q, hq, hqv, _⟩ := moveBackwardInBlock_spec (validBlock_blockAt hvd hb) hp
    unfold moveBackwardsD
    rw [hcp, hq]
    exact ⟨hb, hqv⟩

theorem moveForwardD_validCursor {bs : List Block} {c : Cursor} (hvd : ValidBlocks bs)
    (hvc : ValidCursor bs c) : ValidCursor bs (moveForwardD bs c).2 := by
  obtain ⟨hb, hp⟩ := hvc
  by_cases hend : isEndOfBlockP (blockAt bs c.b) c.p = true
  · by_cases hlast : c.b + 1 = bs.length
    · rw [moveForwardD_end_last hend hlast]
      exact ⟨hb, hp⟩
    · rw [moveForwardD_end_cross hend hlast]
      exact ⟨by simp only; omega, trivial⟩
  · have hend2 : isEndOfBlockP (blockAt bs c.b) c.p = false := by simpa using hend
    obtain ⟨s2, k2, hfwd, hv2, _⟩ :=
      moveForwardInBlock_spec (validBlock_blockAt hvd hb) hp hend2
    unfold moveForwardD
    rw [hfwd]
    exact ⟨hb, hv2⟩

theorem mem_insertBlockAtIdx {bs : List Block} {n : Nat} {nb x : Block}
    (hx : x ∈ insertBlockAtIdx bs n nb) : x = nb ∨ x ∈ bs := by
  unfold insertBlockAtIdx at hx
  rcases List.mem_append.mp hx with h1 | h2
  · right
    exact List.mem_of_mem_take h1
  · rcases List.mem_cons.mp h2 with h3 | h4
    · left
      exact h3
    · right
      exact List.mem_of_mem_drop h4

theorem mem_removeBlockAtIdx {bs : List Block} {n : Nat} {x : Block}
    (hx : x ∈ removeBlockAtIdx bs n) : x ∈ bs := by
  unfold removeBlockAtIdx at hx
  rcases List.mem_append.mp hx with h1 | h2
  · exact List.mem_of_mem_take h1
  · exact List.mem_of_mem_drop h2

theorem validBlocks_insert {bs : List Block} {n : Nat} {nb : Block}
    (hvd : ValidBlocks bs) (hnb : ValidBlock nb) :
    ValidBlocks (insertBlockAtIdx bs n nb) := by
  intro x hx
  rcases mem_insertBlockAtIdx hx with h1 | h2
  · rw [h1]
    exact hnb
  · exact hvd x h2

theorem validBlocks_set {bs : List Block} {i : Nat} {b : Block}
    (hvd : ValidBlocks bs) (hb : ValidBlock b) : ValidBlocks (bs.set i b) := by
  intro x hx
  rcases List.mem_or_eq_of_mem_set hx with h1 | h2
  · exact hvd x h1
  · rw [h2]
    exact hb

theorem validBlocks_remove {bs : List Block} {n : Nat} (hvd : ValidBlocks bs) :
    ValidBlocks (removeBlockAtIdx bs n) :=
  fun x hx => hvd x (mem_removeBlockAtIdx hx)

theorem validBlock_emptyBlock : ValidBlock Block.emptyBlock := by decide

theorem validBlock_of_content {content : List Run} (hc : ValidContent content) :
    ValidBlock ⟨content⟩ := by
  obtain ⟨h1, h2, h3⟩ := hc
  exact ⟨h1, fun r hr hrc => absurd hrc (h2 r hr), h3⟩

theorem isEmpty_false_of_validPos_some {bl : Block} (hv : ValidBlock bl) {s k : Nat}
    (hs : s < bl.runs.length) (hk : k < bl.lenAt s) : bl.isEmpty = false := by
  by_contra h
  have h2 : bl.isEmpty = true := by simpa using h
  obtain ⟨hl1, hl0, _⟩ := valid_length_one_of_empty hv h2
  have hs0 : s = 0 := by omega
  rw [hs0, hl0] at hk
  omega

theorem addElements_valid {bs : List Block} {c : Cursor} (hvd : ValidBlocks bs)
    (hvc : ValidCursor bs c) (frag : List Char) :
    ValidBlocks (addElementsToCursorAndAdvance bs c frag).1 ∧
    ValidCursor (addElementsToCursorAndAdvance bs c frag).1
      (addElementsToCursorAndAdvance bs c frag).2 ∧
    (addElementsToCursorAndAdvance bs c frag).1.length = bs.length := by
  obtain ⟨hb, hp⟩ := hvc
  have hbl : ValidBlock (blockAt bs c.b) := validBlock_blockAt hvd hb
  have hvd2 : ValidBlocks (bs.set c.b ((blockAt bs c.b).addAt c.p frag)) :=
    validBlocks_set hvd (addAt_valid hbl c.p frag)
  have hlen2 : (bs.set c.b ((blockAt bs c.b).addAt c.p frag)).length = bs.length := by simp
  have hblockAt2 : blockAt (bs.set c.b ((blockAt bs c.b).addAt c.p frag)) c.b
      = (blockAt bs c.b).addAt c.p frag := blockAt_set_self hb _
  unfold addElementsToCursorAndAdvance
  simp only
  match hfwd : moveForwardInBlock (blockAt bs c.b) c.p with
  | none =>
    refine ⟨hvd2, ⟨by rw [hlen2]; exact hb, ?_⟩, hlen2⟩
    simp only
    rw [hblockAt2]
    exact (moveToEndOfP_spec (addAt_valid hbl c.p frag)).1
  | some p2 =>
    refine ⟨hvd2, ?_, hlen2⟩
    apply moveBackwardsD_validCursor hvd2
    refine ⟨by rw [hlen2]; exact hb, ?_⟩
    rw [hblockAt2]
    have hend : isEndOfBlockP (blockAt bs c.b) c.p = false := by
      by_contra hcon
      have hcon2 : isEndOfBlockP (blockAt bs c.b) c.p = true := by simpa using hcon
      unfold moveForwardInBlock at hfwd
      rw [hcon2] at hfwd
      simp at hfwd
    unfold moveForwardInBlock at hfwd
    rw [hend] at hfwd
    simp only [Bool.false_eq_true, if_false, Option.some.injEq] at hfwd
    match hcp : c.p with
    | none =>
      rw [hcp] at hfwd
      have hp2 : p2 = some (0, 0) := by
        rw [← hfwd]
      have hlen0 : 0 < (blockAt bs c.b).lenAt 0 := by
        by_contra hl
        have hl0 : (blockAt bs c.b).lenAt 0 = 0 := by omega
        rw [hcp] at hend
        simp only [isEndOfBlockP, isEndOfSpanP, spanIdxP] at hend
        rw [hl0] at hend
        simp at hend
        have hlong : 2 ≤ (blockAt bs c.b).runs.length := by
          have := List.length_pos.mpr hbl.1
          omega
        have hempF : (blockAt bs c.b).isEmpty = false := by
          by_contra hee
          have := (valid_length_one_of_empty hbl (by simpa using hee)).1
          omega
        have := valid_lenAt_pos hbl hempF (show 0 < (blockAt bs c.b).runs.length by omega)
        omega
      rw [hp2]
      simp only [Option.map_some']
      have hshift2 : shiftForInsert (insPoint (none : Pos)).1 (insPoint (none : Pos)).2
          frag.length (0, 0) = (0, frag.length) := by
        unfold shiftForInsert insPoint
        simp
      rw [hshift2]
      constructor
      · rw [addAt_length]
        exact List.length_pos.mpr hbl.1
      · have hsame := @addAt_lenAt_same (blockAt bs c.b) (none : Pos) frag
          (show (insPoint (none : Pos)).1 < (blockAt bs c.b).runs.length by
            unfold insPoint
            exact List.length_pos.mpr hbl.1)
          (by unfold insPoint; simp)
        unfold insPoint at hsame
        simp only at hsame
        rw [hsame]
        omega
    | some (s, k) =>
      rw [hcp] at hfwd hp hend
      obtain ⟨hs, hk⟩ := hp
      by_cases hsp : k + 1 = (blockAt bs c.b).lenAt s
      · have hspb : (k + 1 == (blockAt bs c.b).lenAt s) = true := by simpa using hsp
        have hp2 : p2 = some (s + 1, 0) := by
          rw [← hfwd]
          simp [hspb]
        have hnext : s + 1 < (blockAt bs c.b).runs.length := by
          simp only [isEndOfBlockP, isEndOfSpanP, spanIdxP, hspb, Bool.true_and,
            beq_eq_false_iff_ne, ne_eq] at hend
          omega
        rw [hp2]
        simp only [Option.map_some']
        have hshift : shiftForInsert (insPoint (some (s, k) : Pos)).1
            (insPoint (some (s, k) : Pos)).2 frag.length (s + 1, 0) = (s + 1, 0) := by
          unfold shiftForInsert insPoint
          have h1 : ((s + 1 : Nat) == s) = false := by simp
          simp only [h1, Bool.false_and, Bool.false_eq_true, if_false]
        rw [hshift]
        constructor
        · rw [addAt_length]
          exact hnext
        · have hother := @addAt_lenAt_other (blockAt bs c.b) (some (s, k)) frag
            (s + 1) (by unfold insPoint; simp)
          rw [hother]
          have hlong : 2 ≤ (blockAt bs c.b).runs.length := by omega
          have hempF : (blockAt bs c.b).isEmpty = false := by
            by_contra hee
            have := (valid_length_one_of_empty hbl (by simpa using hee)).1
            omega
          exact valid_lenAt_pos hbl hempF hnext
      · have hspb : (k + 1 == (blockAt bs c.b).lenAt s) = false := by simpa using hsp
        have hp2 : p2 = some (s, k + 1) := by
          rw [← hfwd]
          simp [hspb]
        rw [hp2]
        simp only [Option.map_some']
        have hshift : shiftForInsert (insPoint (some (s, k) : Pos)).1
            (insPoint (some (s, k) : Pos)).2 frag.length (s, k + 1)
            = (s, k + 1 + frag.length) := by
          unfold shiftForInsert insPoint
          simp
        rw [hshift]
        constructor
        · rw [addAt_length]
          exact hs
        · have hsame := @addAt_lenAt_same (blockAt bs c.b) (some (s, k)) frag
            (by unfold insPoint; exact hs) (by unfold insPoint; simp only; omega)
          unfold insPoint at hsame
          simp only at hsame
          rw [hsame]
          omega


theorem length_insertBlockAtIdx {bs : List Block} {n : Nat} (h : n ≤ bs.length) (nb : Block) :
    (insertBlockAtIdx bs n nb).length = bs.length + 1 := by
  unfold insertBlockAtIdx
  simp
  omega

theorem blockAt_insert_lt {bs : List Block} {n i : Nat} (hn : n ≤ bs.length) (hi : i < n)
    (nb : Block) : blockAt (insertBlockAtIdx bs n nb) i = blockAt bs i := by
  unfold blockAt insertBlockAtIdx
  have hlen : (bs.take n).length = n := by simp; omega
  rw [List.getD_append _ _ _ _ (by omega : i < (bs.take n).length)]
  have h1 : (bs.take n)[i]? = bs[i]? := by
    rw [List.getElem?_take]
    simp [hi]
  rw [List.getD_eq_getElem?_getD, h1, ← List.getD_eq_getElem?_getD]

theorem validBlock_take_succ {bl : Block} (hv : ValidBlock bl) (he : bl.isEmpty = false)
    {s : Nat} (hs : s < bl.runs.length) : ValidBlock (⟨bl.runs.take (s + 1)⟩ : Block) := by
  refine ⟨?_, ?_, ?_⟩
  · have hlen : (bl.runs.take (s + 1)).length = s + 1 := by simp; omega
    intro hnil
    have hnil2 : bl.runs.take (s + 1) = [] := hnil
    rw [hnil2] at hlen
    simp at hlen
  · intro r hr hrc
    exact absurd hrc (valid_all_nonempty hv he r (List.mem_of_mem_take hr))
  · exact (hv.2.2).take _

theorem validBlock_keep_div {bl : Block} (hv : ValidBlock bl) (he : bl.isEmpty = false)
    {s k : Nat} (hs : s < bl.runs.length) (hk : k < bl.lenAt s) :
    ValidBlock (⟨bl.runs.take s
      ++ [⟨(bl.runs.getD s ⟨"", []⟩).style, (bl.runs.getD s ⟨"", []⟩).chars.take (k + 1)⟩]⟩
      : Block) := by
  have hrs : bl.runs.getD s ⟨"", []⟩ = bl.runs[s] := runs_getD_eq_getElem hs
  have hclen : k < bl.runs[s].chars.length := by
    rw [lenAt_eq_of_lt hs] at hk
    exact hk
  refine ⟨by simp, ?_, ?_⟩
  · intro r hr hrc
    exfalso
    rcases List.mem_append.mp hr with h1 | h2
    · exact valid_all_nonempty hv he r (List.mem_of_mem_take h1) hrc
    · simp only [List.mem_singleton] at h2
      rw [h2] at hrc
      simp only at hrc
      have hzero : ((bl.runs.getD s ⟨"", []⟩).chars.take (k + 1)).length = 0 := by
        rw [hrc]
        simp
      rw [hrs, List.length_take] at hzero
      omega
  · have hchain := hv.2.2
    unfold StylesOk at hchain ⊢
    have htake := hchain.take (s + 1)
    rw [List.take_succ, List.getElem?_eq_getElem hs] at htake
    simp only [Option.toList_some] at htake
    rw [hrs]
    rw [List.chain'_append] at htake ⊢
    obtain ⟨h1, _, h3⟩ := htake
    refine ⟨h1, List.chain'_singleton _, ?_⟩
    intro x hx y hy
    simp only [List.head?_cons, Option.mem_def, Option.some.injEq] at hy
    have hseam := h3 x hx bl.runs[s] (by simp)
    rw [← hy]
    exact hseam

theorem validContent_drop {bl : Block} (hv : ValidBlock bl) (he : bl.isEmpty = false)
    {t : Nat} (ht : t < bl.runs.length) : ValidContent (bl.runs.drop t) := by
  refine ⟨?_, ?_, ?_⟩
  · have hlen : (bl.runs.drop t).length = bl.runs.length - t := by simp
    intro hnil
    rw [hnil] at hlen
    simp at hlen
    omega
  · exact fun r hr => valid_all_nonempty hv he r (List.mem_of_mem_drop hr)
  · exact (hv.2.2).drop _

theorem validContent_moved_div {bl : Block} (hv : ValidBlock bl) (he : bl.isEmpty = false)
    {s k : Nat} (hs : s < bl.runs.length) (hk1 : k + 1 < bl.lenAt s) :
    ValidContent (Run.mk (bl.runs.getD s ⟨"", []⟩).style
      ((bl.runs.getD s ⟨"", []⟩).chars.drop (k + 1)) :: bl.runs.drop (s + 1)) := by
  have hrs : bl.runs.getD s ⟨"", []⟩ = bl.runs[s] := runs_getD_eq_getElem hs
  have hclen : k + 1 < bl.runs[s].chars.length := by
    rw [lenAt_eq_of_lt hs] at hk1
    exact hk1
  refine ⟨by simp, ?_, ?_⟩
  · intro r hr
    rcases List.mem_cons.mp hr with h1 | h2
    · rw [h1, hrs]
      intro hc
      have hc2 : bl.runs[s].chars.drop (k + 1) = [] := hc
      have hzero : (bl.runs[s].chars.drop (k + 1)).length = 0 := by
        rw [hc2]
        rfl
      rw [List.length_drop] at hzero
      omega
    · exact valid_all_nonempty hv he r (List.mem_of_mem_drop h2)
  · have hchain := hv.2.2
    unfold StylesOk at hchain ⊢
    have hdrop := hchain.drop s
    rw [List.drop_eq_getElem_cons hs] at hdrop
    rw [List.chain'_cons'] at hdrop ⊢
    obtain ⟨h1, h2⟩ := hdrop
    refine ⟨?_, h2⟩
    intro y hy
    rw [hrs]
    exact h1 y hy

theorem splitBlockD_valid {d : DocState} {c : Cursor} (hvd : ValidDoc d)
    (hvc : ValidCursor d.blocks c) :
    ValidDoc (splitBlockD d c).1 ∧
    ValidCursor (splitBlockD d c).1.blocks (splitBlockD d c).2 := by
  obtain ⟨hb, hp⟩ := hvc
  have hbl : ValidBlock (blockAt d.blocks c.b) := validBlock_blockAt hvd hb
  match hcp : c.p with
  | none =>
    unfold splitBlockD
    rw [hcp]
    refine ⟨validBlocks_insert hvd validBlock_emptyBlock, ?_, ?_⟩
    · simp only
      rw [length_insertBlockAtIdx (le_of_lt hb)]
      omega
    · simp only
      rw [blockAt_insert_self (le_of_lt hb)]
      exact (moveToEndOfP_spec validBlock_emptyBlock).1
  | some (s, k) =>
    rw [hcp] at hp
    obtain ⟨hs, hk⟩ := hp
    have he : (blockAt d.blocks c.b).isEmpty = false := isEmpty_false_of_validPos_some hbl hs hk
    unfold splitBlockD
    rw [hcp]
    by_cases hend : isEndOfBlockP (blockAt d.blocks c.b) (some (s, k)) = true
    · simp only [hend, if_true]
      refine ⟨validBlocks_insert hvd validBlock_emptyBlock, ?_, ?_⟩
      · rw [length_insertBlockAtIdx (by omega)]
        omega
      · rw [blockAt_insert_lt (by omega) (by omega)]
        rw [hcp]
        exact ⟨hs, hk⟩
    · have hendF : isEndOfBlockP (blockAt d.blocks c.b) (some (s, k)) = false := by
        simpa using hend
      simp only [hendF, Bool.false_eq_true, if_false]
      set bl := blockAt d.blocks c.b with hblx
      by_cases hsp : k + 1 = bl.lenAt s
      · have hspb : (k + 1 == bl.lenAt s) = true := by simpa using hsp
        simp only [hspb, if_true]
        have hs1 : s + 1 < bl.runs.length := by
          simp only [isEndOfBlockP, isEndOfSpanP, spanIdxP, hspb, Bool.true_and,
            beq_eq_false_iff_ne, ne_eq] at hendF
          omega
        have hkeep : ValidBlock (⟨bl.runs.take (s + 1)⟩ : Block) :=
          validBlock_take_succ hbl he hs
        have hmoved : ValidContent (bl.runs.drop (s + 1)) := validContent_drop hbl he hs1
        have hnew : ValidBlock (appendToBlockB Block.emptyBlock (bl.runs.drop (s + 1))) := by
          rw [appendToBlockB_emptyBlock]
          exact validBlock_of_content hmoved
        refine ⟨validBlocks_insert (validBlocks_set hvd hkeep) hnew, ?_, ?_⟩
        · rw [length_insertBlockAtIdx (by simp only [List.length_set]; omega)]
          simp only [List.length_set]
          omega
        · rw [blockAt_insert_lt (by simp only [List.length_set]; omega) (by omega)]
          rw [blockAt_set_self hb]
          rw [hcp]
          refine ⟨?_, ?_⟩
          · simp only [List.length_take]
            omega
          · rw [Block.lenAt]
            simp only
            have hlt : s < (bl.runs.take (s + 1)).length := by
              simp
              omega
            rw [List.getD_eq_getElem _ _ hlt, List.getElem_take bl.runs]
            rw [lenAt_eq_of_lt hs] at hk
            exact hk
      · have hspb : (k + 1 == bl.lenAt s) = false := by simpa using hsp
        simp only [hspb, Bool.false_eq_true, if_false]
        have hk1 : k + 1 < bl.lenAt s := by omega
        have hkeep : ValidBlock (⟨bl.runs.take s
            ++ [⟨(bl.runs.getD s ⟨"", []⟩).style,
                 (bl.runs.getD s ⟨"", []⟩).chars.take (k + 1)⟩]⟩ : Block) :=
          validBlock_keep_div hbl he hs hk
        have hmoved : ValidContent (Run.mk (bl.runs.getD s ⟨"", []⟩).style
            ((bl.runs.getD s ⟨"", []⟩).chars.drop (k + 1)) :: bl.runs.drop (s + 1)) :=
          validContent_moved_div hbl he hs hk1
        have hnew : ValidBlock (appendToBlockB Block.emptyBlock
            (Run.mk (bl.runs.getD s ⟨"", []⟩).style
              ((bl.runs.getD s ⟨"", []⟩).chars.drop (k + 1)) :: bl.runs.drop (s + 1))) := by
          rw [appendToBlockB_emptyBlock]
          exact validBlock_of_content hmoved
        refine ⟨validBlocks_insert (validBlocks_set hvd hkeep) hnew, ?_, ?_⟩
        · rw [length_insertBlockAtIdx (by simp only [List.length_set]; omega)]
          simp only [List.length_set]
          omega
        · rw [blockAt_insert_lt (by simp only [List.length_set]; omega) (by omega)]
          rw [blockAt_set_self hb]
          rw [hcp]
          refine ⟨?_, ?_⟩
          · simp only [List.length_append, List.length_take, List.length_singleton]
            omega
          · rw [Block.lenAt]
            simp only
            have hlen : (bl.runs.take s).length = s := by
              simp
              omega
            rw [List.getD_append_right _ _ _ _ (by omega : (bl.runs.take s).length ≤ s)]
            rw [hlen]
            simp only [Nat.sub_self, List.getD_cons_zero]
            show k < ((bl.runs.getD s ⟨"", []⟩).chars.take (k + 1)).length
            have hle : k + 1 ≤ (bl.runs.getD s ⟨"", []⟩).chars.length := by
              rw [runs_getD_eq_getElem hs, ← lenAt_eq_of_lt hs]
              omega
            rw [List.length_take]
            omega

theorem insertFragmentsLoop_valid (fs : List (List Char)) {d : DocState} {c : Cursor}
    (hvd : ValidDoc d) (hvc : ValidCursor d.blocks c) :
    ValidDoc (insertFragmentsLoop d c fs).1 ∧
    ValidCursor (insertFragmentsLoop d c fs).1.blocks (insertFragmentsLoop d c fs).2 := by
  induction fs generalizing d c with
  | nil => exact ⟨hvd, hvc⟩
  | cons f fs ih =>
    unfold insertFragmentsLoop
    obtain ⟨hvd1, hvc1⟩ := splitBlockD_valid hvd hvc
    have hvb1 : ValidBlocks (splitBlockD d c).1.blocks := hvd1
    have hvc2 : ValidCursor (splitBlockD d c).1.blocks
        (moveForwardD (splitBlockD d c).1.blocks (splitBlockD d c).2).2 :=
      moveForwardD_validCursor hvb1 hvc1
    obtain ⟨hvd3, hvc3, _⟩ := addElements_valid hvb1 hvc2 f
    exact ih hvd3 hvc3

theorem insertTextD_valid {d : DocState} {c : Cursor} (hvd : ValidDoc d)
    (hvc : ValidCursor d.blocks c) (text : List Char) :
    ValidDoc (insertTextD d c text).1 := by
  unfold insertTextD insertTextAtCursorD
  have hvb : ValidBlocks d.blocks := hvd
  obtain ⟨hvd0, hvc0, _⟩ := addElements_valid hvb hvc ((splitFragments text).headD [])
  exact (@insertFragmentsLoop_valid (splitFragments text).tail
    ⟨(addElementsToCursorAndAdvance d.blocks c ((splitFragments text).headD [])).1,
      increment d.pos⟩
    (addElementsToCursorAndAdvance d.blocks c ((splitFragments text).headD [])).2
    hvd0 hvc0).1

theorem mergeBlocksD_valid {d : DocState} {i j : Nat} (hvd : ValidDoc d)
    (hi : i < d.blocks.length) (hj : j < d.blocks.length) :
    ValidDoc (mergeBlocksD d i j).1 := by
  have hva : ValidBlock (blockAt d.blocks i) := validBlock_blockAt hvd hi
  have hvb : ValidBlock (blockAt d.blocks j) := validBlock_blockAt hvd hj
  unfold mergeBlocksD
  by_cases hbe : (blockAt d.blocks j).isEmpty = true
  · simp only [hbe, if_true]
    exact validBlocks_remove hvd
  · have hbeF : (blockAt d.blocks j).isEmpty = false := by simpa using hbe
    simp only [hbeF, Bool.false_eq_true, if_false]
    by_cases hae : (blockAt d.blocks i).isEmpty = true
    · simp only [hae, if_true]
      apply validBlocks_set (validBlocks_remove hvd)
      rw [appendToBlockB_empty_case hva hae]
      exact hvb
    · have haeF : (blockAt d.blocks i).isEmpty = false := by simpa using hae
      simp only [haeF, Bool.false_eq_true, if_false]
      apply validBlocks_set (validBlocks_remove hvd)
      exact appendToBlockB_valid hva haeF ⟨hvb.1, valid_all_nonempty hvb hbeF, hvb.2.2⟩

theorem step_preserves {x y : DocState} (hvd : ValidDoc x) (hstep : Step x y) : ValidDoc y := by
  cases hstep with
  | insertText c text hvc => exact insertTextD_valid hvd hvc text
  | splitBlock c hvc => exact (splitBlockD_valid hvd hvc).1
  | mergeBlocks i j hi hj hij => exact mergeBlocksD_valid hvd hi hj
  | appendToBlock i content hi hc =>
    have hva : ValidBlock (blockAt x.blocks i) := validBlock_blockAt hvd hi
    apply validBlocks_set hvd
    by_cases hae : (blockAt x.blocks i).isEmpty = true
    · rw [appendToBlockB_empty_case hva hae]
      exact validBlock_of_content hc
    · exact appendToBlockB_valid hva (by simpa using hae) hc
  | removeBlock i hi => exact validBlocks_remove hvd

/-- C1: starting from a well-formed document, after every sequence of the
structural operations `insertText`, `splitBlock`, `mergeBlocks`,
`appendToBlock` and `removeBlock`, no block contains an empty span alongside a
non-empty span and no two adjacent spans of a block carry the same style; and
`appendToBlock` indeed first discards the single empty span of an empty target
block, and coalesces the last retained span with the first appended span when
their styles agree. -/
theorem C1_run_invariants (d0 d : DocState)
    (h0 : ValidDoc d0) (hs : Relation.ReflTransGen Step d0 d) :
    (∀ bl ∈ d.blocks,
      (∀ r1 ∈ bl.runs, ∀ r2 ∈ bl.runs, ¬(r1.chars = [] ∧ r2.chars ≠ [])) ∧
      List.Chain' (fun r1 r2 : Run => r1.style ≠ r2.style) bl.runs) ∧
    (∀ a : Block, ValidBlock a → a.isEmpty = true →
      ∀ content : List Run, appendToBlockB a content = ⟨content⟩) ∧
    (∀ a : Block, a.isEmpty = false → ∀ hne : a.runs ≠ [], ∀ f : Run, ∀ rest : List Run,
      (a.runs.getLast hne).style = f.style →
      appendToBlockB a (f :: rest)
        = ⟨a.runs.dropLast
            ++ Run.mk (a.runs.getLast hne).style ((a.runs.getLast hne).chars ++ f.chars)
            :: rest⟩) := by
  have hvd : ValidDoc d := by
    induction hs with
    | refl => exact h0
    | tail _ hstep ih => exact step_preserves ih hstep
  refine ⟨?_, ?_, ?_⟩
  · intro bl hbl
    have hv := hvd bl hbl
    refine ⟨?_, hv.2.2⟩
    rintro r1 h1 r2 h2 ⟨hc1, hc2⟩
    have hlen := hv.2.1 r1 h1 hc1
    obtain ⟨a, ha⟩ := List.length_eq_one.mp hlen
    rw [ha] at h1 h2
    simp only [List.mem_singleton] at h1 h2
    rw [h1] at hc1
    rw [h2] at hc2
    exact hc2 hc1
  · intro a hv he content
    exact appendToBlockB_empty_case hv he content
  · intro a he hne f rest hst
    rcases @appendToBlockB_cases a he hne (f :: rest) f rest rfl with ⟨_, heq⟩ | ⟨hst2, _⟩
    · exact heq
    · exact absurd hst hst2

theorem C1_run_invariants_witness :
    ValidDoc (⟨[Block.emptyBlock], 1⟩ : DocState) ∧
    (∀ bl ∈ (splitBlockD ⟨[Block.emptyBlock], 1⟩ ⟨0, none⟩).1.blocks,
      (∀ r1 ∈ bl.runs, ∀ r2 ∈ bl.runs, ¬(r1.chars = [] ∧ r2.chars ≠ [])) ∧
      List.Chain' (fun r1 r2 : Run => r1.style ≠ r2.style) bl.runs) := by
  refine ⟨by decide, ?_⟩
  exact (C1_run_invariants ⟨[Block.emptyBlock], 1⟩ (splitBlockD ⟨[Block.emptyBlock], 1⟩ ⟨0, none⟩).1
    (by decide)
    (Relation.ReflTransGen.single (Step.splitBlock ⟨[Block.emptyBlock], 1⟩ ⟨0, none⟩ (by decide)))).1

end TextRight
